import Mathlib

/-!
Verification development for the block-diff-and-apply index engine of
`ckb-cli` (file `src/ckb-sdk/src/index/types.rs`).

Machine integers are modelled as `Nat` with explicit reduction modulo
`2 ^ w` wherever the Rust code can overflow (release-mode wrapping
semantics); panics that are active in release builds (`assert!`,
`Option::unwrap`, failing `rkv` deletes) are modelled by returning `none`.
Hashes (`H256`, script hashes, transaction hashes) are modelled as `Nat`;
the external hash function on scripts and the external
`Address::from_lock_arg` are abstract parameters of the embedding.
-/

set_option maxRecDepth 10000

/-- Modulus of a 32-bit machine integer. -/
def u32M : Nat := 2 ^ 32

/-- Modulus of a 64-bit machine integer. -/
def u64M : Nat := 2 ^ 64

/-- Modulus of a 128-bit machine integer. -/
def u128M : Nat := 2 ^ 128

/-- Wrapping sum of a list of `u64` values, as computed by
`iterator.sum::<u64>()` in release mode: every partial sum is reduced
modulo `2 ^ 64`. -/
def u64sum (l : List Nat) : Nat := l.foldl (fun a b => (a + b) % u64M) 0

/-- Wrapping `u128` subtraction `a - b` (both operands below `2 ^ 128`). -/
def u128sub (a b : Nat) : Nat := (a + u128M - b) % u128M

/-- Wrapping `u128` addition. -/
def u128add (a b : Nat) : Nat := (a + b) % u128M

/-- Reinterpretation of the low 64 bits of a natural number as a signed
two's-complement 64-bit integer, as performed by an `as i64` cast. -/
def i64ofWrap (n : Nat) : Int :=
  if n % u64M < 2 ^ 63 then (n % u64M : Int) else (n % u64M : Int) - (u64M : Int)

/-- Embeds `CellOutPoint`: a reference to a transaction output
(transaction hash plus output index). -/
structure CellOutPoint where
  tx_hash : Nat
  index : Nat
deriving DecidableEq

/-- Embeds `CellIndex` (types.rs): the position of an output inside a
block, as (transaction index in block, output index in transaction). -/
structure CellIndex where
  tx_index : Nat
  output_index : Nat
deriving DecidableEq

/-- Embeds `Script` from `ckb_core`: a code hash plus a list of byte-string
arguments. Only the fields read by `LockInfo::set_script` are modelled. -/
structure Script where
  code_hash : Nat
  args : List (List Nat)
deriving DecidableEq

/-- Embeds `LiveCellInfo` (types.rs): one currently-unspent output. -/
structure LiveCellInfo where
  out_point : CellOutPoint
  lock_hash : Nat
  capacity : Nat
  number : Nat
  index : CellIndex
deriving DecidableEq

/-- Embeds `LockInfo` (types.rs): the transient per-block, per-lock-hash
capacity aggregate.  Addresses are modelled as `Nat`. -/
structure LockInfo where
  script_opt : Option Script
  address_opt : Option Nat
  old_total_capacity : Nat
  new_total_capacity : Nat
  inputs_capacity : Nat
  outputs_capacity : Nat
deriving DecidableEq

/-- Embeds `LockInfo::new`: both totals start at the persisted capacity,
both running counters start at zero. -/
def LockInfo.new (old_total_capacity : Nat) : LockInfo :=
  { script_opt := none
    address_opt := none
    old_total_capacity := old_total_capacity
    new_total_capacity := old_total_capacity
    inputs_capacity := 0
    outputs_capacity := 0 }

/-- Embeds `LockInfo::set_script`.  The recognized standard code hash
`SECP_CODE_HASH` and the external `Address::from_lock_arg` (with `Ok`
rendered as `some` and `Err`, which the source merely logs, as `none`)
are abstract parameters. -/
def LockInfo.set_script (secpCodeHash : Nat) (fromLockArg : List Nat → Option Nat)
    (info : LockInfo) (script : Script) : LockInfo :=
  let address_opt :=
    if script.code_hash = secpCodeHash then
      if script.args.length = 1 then
        match fromLockArg (script.args.headD []) with
        | some address => some address
        | none => none
      else none
    else none
  { info with script_opt := some script, address_opt := address_opt }

/-- Embeds `LockInfo::add_input`.  The `assert!(new_total_capacity >= input_capacity)`
is modelled by returning `none` (a release-mode panic); the running
`inputs_capacity` counter wraps modulo `2 ^ 64`. -/
def LockInfo.add_input (info : LockInfo) (input_capacity : Nat) : Option LockInfo :=
  if info.new_total_capacity ≥ input_capacity then
    some { info with
            inputs_capacity := (info.inputs_capacity + input_capacity) % u64M
            new_total_capacity := info.new_total_capacity - input_capacity }
  else
    none

/-- Embeds `LockInfo::add_output`: both the running counter and the new
total wrap modulo `2 ^ 64`. -/
def LockInfo.add_output (info : LockInfo) (output_capacity : Nat) : LockInfo :=
  { info with
      outputs_capacity := (info.outputs_capacity + output_capacity) % u64M
      new_total_capacity := (info.new_total_capacity + output_capacity) % u64M }

/-- One call against a `LockInfo` aggregate: either `add_input` or
`add_output` with the given capacity. -/
inductive LockOp where
  | input (capacity : Nat)
  | output (capacity : Nat)
deriving DecidableEq

/-- Runs a sequence of `add_input`/`add_output` calls against a `LockInfo`;
`none` as soon as some `add_input` precondition fails. -/
def runLockOps (info : LockInfo) : List LockOp → Option LockInfo
  | [] => some info
  | LockOp.input c :: rest =>
    match info.add_input c with
    | some info' => runLockOps info' rest
    | none => none
  | LockOp.output c :: rest => runLockOps (info.add_output c) rest

/-- Embeds `CellIndex::to_bytes`: big-endian bytes of `tx_index` followed
by big-endian bytes of `output_index` (bytes as `Nat` values below 256). -/
def u32be (n : Nat) : List Nat :=
  [n / 2 ^ 24 % 256, n / 2 ^ 16 % 256, n / 2 ^ 8 % 256, n % 256]

/-- Recombines four big-endian base-256 digits into a number. -/
def beVal (a b c d : Nat) : Nat := ((a * 256 + b) * 256 + c) * 256 + d

/-- Embeds `CellIndex::to_bytes`. -/
def CellIndex.to_bytes (ci : CellIndex) : List Nat :=
  u32be ci.tx_index ++ u32be ci.output_index

/-- Embeds `CellIndex::from_bytes` (the source takes a fixed `[u8; 8]`
array; other list shapes are unreachable and mapped to a default). -/
def CellIndex.from_bytes : List Nat → CellIndex
  | [a, b, c, d, e, f, g, h] =>
    { tx_index := beVal a b c d, output_index := beVal e f g h }
  | _ => { tx_index := 0, output_index := 0 }

/-- Strict lexicographic order on byte strings, the iteration order of the
underlying ordered key-value store. -/
def bytesLt : List Nat → List Nat → Bool
  | [], [] => false
  | _ :: _, [] => false
  | [], _ :: _ => true
  | a :: as', b :: bs' =>
    if a < b then true else if a = b then bytesLt as' bs' else false

/-- Logical order on `CellIndex` values: by transaction index, then by
output index — the block order of cells. -/
def cellIndexLt (x y : CellIndex) : Prop :=
  x.tx_index < y.tx_index ∨ (x.tx_index = y.tx_index ∧ x.output_index < y.output_index)

/-- Embeds the block `Header` fields read by the index engine. -/
structure Header where
  number : Nat
  timestamp : Nat
deriving DecidableEq

/-- Embeds a transaction output: its lock script and its capacity. -/
structure Output where
  lock : Script
  capacity : Nat
deriving DecidableEq

/-- Embeds a transaction: its hash, its inputs (each optionally referencing
a previous cell output, `previous_output.cell`), and its outputs. -/
structure Tx where
  hash : Nat
  inputs : List (Option CellOutPoint)
  outputs : List Output
deriving DecidableEq

/-- Embeds a `Block`: header, uncle count, proposal count, transactions. -/
structure Block where
  header : Header
  uncles : Nat
  proposals : Nat
  transactions : List Tx
deriving DecidableEq

/-- Embeds the `HashType` tag stored in the global hash registry. -/
inductive HashType where
  | block
  | transaction
  | lock
  | data
deriving DecidableEq

/-- Embeds `TxInfo`: the thin persisted transaction record. -/
structure TxInfo where
  tx_hash : Nat
  tx_index : Nat
  block_number : Nat
  block_timestamp : Nat
  inputs : List CellOutPoint
  outputs : List CellOutPoint
deriving DecidableEq

/-- Embeds `RichTxInfo`: the transient rich transaction record. -/
structure RichTxInfo where
  tx_hash : Nat
  tx_index : Nat
  block_number : Nat
  block_timestamp : Nat
  inputs : List LiveCellInfo
  outputs : List LiveCellInfo
deriving DecidableEq

/-- Embeds `RichTxInfo::to_thin`. -/
def RichTxInfo.to_thin (t : RichTxInfo) : TxInfo :=
  { tx_hash := t.tx_hash
    tx_index := t.tx_index
    block_number := t.block_number
    block_timestamp := t.block_timestamp
    inputs := t.inputs.map (fun info => info.out_point)
    outputs := t.outputs.map (fun info => info.out_point) }

/-- Embeds `HeaderInfo`: the persisted per-header statistics record. -/
structure HeaderInfo where
  header : Header
  txs_size : Nat
  uncles_size : Nat
  proposals_size : Nat
  chain_capacity : Nat
  capacity_delta : Int
  cell_removed : Nat
  cell_added : Nat
deriving DecidableEq

/-- Embeds `ApplyResult`. -/
structure ApplyResult where
  chain_capacity : Nat
  capacity_delta : Int
  cell_removed : Nat
  cell_added : Nat
  txs : Nat
deriving DecidableEq

/-- Embeds the ordered key-value store, one field per key kind written or
read by `from_block`/`apply`.  Point-addressed key kinds are functions to
`Option`; the recent-header index, which is scanned in ascending key order,
is a list of (number, record) pairs kept sorted by number (big-endian
number keys make numeric and byte order coincide). -/
structure Store where
  liveCellMap : CellOutPoint → Option LiveCellInfo
  liveCellIndex : Nat × CellIndex → Option CellOutPoint
  lockLiveCellIndex : Nat × Nat × CellIndex → Option CellOutPoint
  txMap : Nat → Option TxInfo
  lockTx : Nat × Nat × Nat → Option Nat
  globalHash : Nat → Option HashType
  lockScript : Nat → Option Script
  secpAddrLock : Nat → Option Nat
  lockTotalCapacity : Nat → Option Nat
  lockTotalCapacityIndex : Nat × Nat → Bool
  totalCapacity : Option Nat
  recentHeaders : List (Nat × HeaderInfo)
  lastHeader : Option Header

/-- The empty store: no keys present. -/
def emptyStore : Store :=
  { liveCellMap := fun _ => none
    liveCellIndex := fun _ => none
    lockLiveCellIndex := fun _ => none
    txMap := fun _ => none
    lockTx := fun _ => none
    globalHash := fun _ => none
    lockScript := fun _ => none
    secpAddrLock := fun _ => none
    lockTotalCapacity := fun _ => none
    lockTotalCapacityIndex := fun _ => false
    totalCapacity := none
    recentHeaders := []
    lastHeader := none }

/-- Embeds the `KEEP_RECENT_HEADERS` constant (types.rs line 16). -/
def KEEP_RECENT_HEADERS : Nat := 10000

/-- Embeds the old-header collection loop of `from_block`: scan the
recent-header index from its start, collect every number at least
`KEEP_RECENT_HEADERS` older than the new block's number, and stop at the
first younger entry. -/
def collectOldHeaders : List (Nat × HeaderInfo) → Nat → List Nat
  | [], _ => []
  | (n, _) :: rest, number =>
    if n + KEEP_RECENT_HEADERS ≤ number then n :: collectOldHeaders rest number
    else []

/-- Key-level version of `collectOldHeaders`. -/
def collectOldNums : List Nat → Nat → List Nat
  | [], _ => []
  | n :: rest, number =>
    if n + KEEP_RECENT_HEADERS ≤ number then n :: collectOldNums rest number
    else []

/-- The per-block lock aggregate map (`HashMap<H256, LockInfo>` in the
source), determinized as an insertion-ordered association list. -/
abbrev LockMap := List (Nat × LockInfo)

/-- Lookup in a `LockMap`. -/
def lockLookup : LockMap → Nat → Option LockInfo
  | [], _ => none
  | (h, i) :: rest, k => if h = k then some i else lockLookup rest k

/-- In-place update (or append) in a `LockMap`. -/
def lockUpdate : LockMap → Nat → LockInfo → LockMap
  | [], k, v => [(k, v)]
  | (h, i) :: rest, k, v =>
    if h = k then (k, v) :: rest else (h, i) :: lockUpdate rest k v

/-- Embeds the `locks.entry(lock_hash).or_insert_with(..)` lookup of
`from_block`: an absent entry is created from the persisted
`LockTotalCapacity` record, defaulting to 0. -/
def lockGet (s : Store) (locks : LockMap) (lock_hash : Nat) : LockInfo :=
  match lockLookup locks lock_hash with
  | some info => info
  | none => LockInfo.new ((s.lockTotalCapacity lock_hash).getD 0)

/-- Embeds the input loop of `from_block` for one transaction: each input
referencing a previous cell is resolved from the live-cell-by-origin index
(a missing record is the fatal `unwrap`, modelled as `none`) and folded
into the lock aggregate via `add_input`. -/
def processInputs (s : Store) :
    LockMap → List (Option CellOutPoint) → Option (List LiveCellInfo × LockMap)
  | locks, [] => some ([], locks)
  | locks, none :: rest => processInputs s locks rest
  | locks, some op :: rest =>
    match s.liveCellMap op with
    | none => none
    | some info =>
      match (lockGet s locks info.lock_hash).add_input info.capacity with
      | none => none
      | some lockInfo' =>
        match processInputs s (lockUpdate locks info.lock_hash lockInfo') rest with
        | none => none
        | some (infos, locks') => some (info :: infos, locks')

/-- Embeds the output loop of `from_block` for one transaction: each
output yields a `LiveCellInfo` keyed by (transaction position, output
position), and its lock aggregate receives `set_script` and `add_output`. -/
def processOutputs (secp : Nat) (fla : List Nat → Option Nat) (sh : Script → Nat)
    (s : Store) (number txHash txIndex : Nat) :
    LockMap → Nat → List Output → List LiveCellInfo × LockMap
  | locks, _, [] => ([], locks)
  | locks, outIdx, output :: rest =>
    let lock_hash := sh output.lock
    let info : LiveCellInfo :=
      { out_point := { tx_hash := txHash, index := outIdx }
        lock_hash := lock_hash
        capacity := output.capacity
        number := number
        index := { tx_index := txIndex, output_index := outIdx } }
    let lockInfo1 :=
      ((lockGet s locks lock_hash).set_script secp fla output.lock).add_output
        output.capacity
    let rec' :=
      processOutputs secp fla sh s number txHash txIndex
        (lockUpdate locks lock_hash lockInfo1) (outIdx + 1) rest
    (info :: rec'.1, rec'.2)

/-- Embeds the body of the per-transaction closure of `from_block`. -/
def processTx (secp : Nat) (fla : List Nat → Option Nat) (sh : Script → Nat)
    (s : Store) (number timestamp txIndex : Nat) (tx : Tx) (locks : LockMap) :
    Option (RichTxInfo × LockMap) :=
  match processInputs s locks tx.inputs with
  | none => none
  | some (inputs, locks1) =>
    let outs := processOutputs secp fla sh s number tx.hash txIndex locks1 0 tx.outputs
    some ({ tx_hash := tx.hash
            tx_index := txIndex
            block_number := number
            block_timestamp := timestamp
            inputs := inputs
            outputs := outs.1 }, outs.2)

/-- Embeds the enumerated map over a block's transactions in `from_block`. -/
def processTxs (secp : Nat) (fla : List Nat → Option Nat) (sh : Script → Nat)
    (s : Store) (number timestamp : Nat) :
    Nat → LockMap → List Tx → Option (List RichTxInfo × LockMap)
  | _, locks, [] => some ([], locks)
  | txIndex, locks, tx :: rest =>
    match processTx secp fla sh s number timestamp txIndex tx locks with
    | none => none
    | some (rich, locks') =>
      match processTxs secp fla sh s number timestamp (txIndex + 1) locks' rest with
      | none => none
      | some (richs, locks'') => some (rich :: richs, locks'')

/-- Embeds `BlockDeltaInfo`. -/
structure BlockDeltaInfo where
  header : Header
  txs : List RichTxInfo
  locks : LockMap
  old_headers : List Nat
  old_chain_capacity : Nat
  new_chain_capacity : Nat
  uncles_size : Nat
  proposals_size : Nat
deriving DecidableEq

/-- Embeds `BlockDeltaInfo::from_block` (types.rs lines 96-224).  The
store is threaded through and returned so that the absence of writes is a
provable statement; all accesses in the body are reads.  Fatal unwraps and
assertion failures yield `none`.  The two per-lock total sums are `u64`
sums (wrapping); the final chain-capacity combination is `u128`. -/
def fromBlock (secp : Nat) (fla : List Nat → Option Nat) (sh : Script → Nat)
    (block : Block) (s : Store) : Option (BlockDeltaInfo × Store) :=
  let header := block.header
  let old_headers := collectOldHeaders s.recentHeaders header.number
  match processTxs secp fla sh s header.number header.timestamp 0 [] block.transactions with
  | none => none
  | some (txs, locks) =>
    let locks_old_total := u64sum (locks.map (fun p => p.2.old_total_capacity))
    let locks_new_total := u64sum (locks.map (fun p => p.2.new_total_capacity))
    let old_chain_capacity := s.totalCapacity.getD 0
    let new_chain_capacity := u128add (u128sub old_chain_capacity locks_old_total) locks_new_total
    some ({ header := header
            txs := txs
            locks := locks
            old_headers := old_headers
            old_chain_capacity := old_chain_capacity
            new_chain_capacity := new_chain_capacity
            uncles_size := block.uncles
            proposals_size := block.proposals }, s)

/-- Store write: persist a thin transaction record (`Key::pair_tx_map`). -/
def Store.putTxMap (s : Store) (txHash : Nat) (t : TxInfo) : Store :=
  { s with txMap := fun k => if k = txHash then some t else s.txMap k }

/-- Store write: persist a lock-to-transaction history entry
(`Key::pair_lock_tx`). -/
def Store.putLockTx (s : Store) (key : Nat × Nat × Nat) (txHash : Nat) : Store :=
  { s with lockTx := fun k => if k = key then some txHash else s.lockTx k }

/-- Store delete with `unwrap`: removing an absent live-cell-by-origin
record is a fatal error (`none`). -/
def Store.delLiveCellMap (s : Store) (op : CellOutPoint) : Option Store :=
  match s.liveCellMap op with
  | none => none
  | some _ =>
    some { s with liveCellMap := fun k => if k = op then none else s.liveCellMap k }

/-- Store delete with `unwrap` on the live-cell-by-block-position index. -/
def Store.delLiveCellIndex (s : Store) (key : Nat × CellIndex) : Option Store :=
  match s.liveCellIndex key with
  | none => none
  | some _ =>
    some { s with liveCellIndex := fun k => if k = key then none else s.liveCellIndex k }

/-- Store delete with `unwrap` on the live-cell-by-lock-and-position index. -/
def Store.delLockLiveCellIndex (s : Store) (key : Nat × Nat × CellIndex) : Option Store :=
  match s.lockLiveCellIndex key with
  | none => none
  | some _ =>
    some { s with lockLiveCellIndex := fun k => if k = key then none else s.lockLiveCellIndex k }

/-- Store write: the three live-cell projections for a produced cell
(`pair_live_cell_map`, `pair_live_cell_index`, `pair_lock_live_cell_index`).
The by-origin record is keyed by the cell's own `out_point` field. -/
def Store.putLiveCell (s : Store) (info : LiveCellInfo) : Store :=
  { s with
      liveCellMap := fun k => if k = info.out_point then some info else s.liveCellMap k
      liveCellIndex := fun k =>
        if k = (info.number, info.index) then some info.out_point else s.liveCellIndex k
      lockLiveCellIndex := fun k =>
        if k = (info.lock_hash, info.number, info.index) then some info.out_point
        else s.lockLiveCellIndex k }

/-- Embeds the consumed-cell loop of `apply` for one transaction: a
lock-to-transaction history entry is written, then the three live-cell
projections are deleted (each `unwrap`ed). -/
def applyTxInputs (txHash : Nat) : Store → List LiveCellInfo → Option Store
  | s, [] => some s
  | s, info :: rest =>
    let s1 := s.putLockTx (info.lock_hash, info.number, info.index.tx_index) txHash
    match s1.delLiveCellMap info.out_point with
    | none => none
    | some s2 =>
      match s2.delLiveCellIndex (info.number, info.index) with
      | none => none
      | some s3 =>
        match s3.delLockLiveCellIndex (info.lock_hash, info.number, info.index) with
        | none => none
        | some s4 => applyTxInputs txHash s4 rest

/-- Embeds the produced-cell loop of `apply` for one transaction: a
lock-to-transaction history entry plus the three live-cell projections. -/
def applyTxOutputs (txHash : Nat) : Store → List LiveCellInfo → Store
  | s, [] => s
  | s, info :: rest =>
    let s1 := s.putLockTx (info.lock_hash, info.number, info.index.tx_index) txHash
    applyTxOutputs txHash (s1.putLiveCell info) rest

/-- Embeds the per-transaction body of `apply`: persist the thin record,
process consumed inputs, then produced outputs. -/
def applyTx (s : Store) (t : RichTxInfo) : Option Store :=
  let s1 := s.putTxMap t.tx_hash t.to_thin
  match applyTxInputs t.tx_hash s1 t.inputs with
  | none => none
  | some s2 => some (applyTxOutputs t.tx_hash s2 t.outputs)

/-- Embeds the transaction loop of `apply`. -/
def applyTxs : Store → List RichTxInfo → Option Store
  | s, [] => some s
  | s, t :: rest =>
    match applyTx s t with
    | none => none
    | some s' => applyTxs s' rest

/-- Embeds the per-lock body of `apply`: hash registry, optional script
and address records, tolerant delete of the old ranking entry, then
either persist the new total (and its ranking entry) or `unwrap`-delete
the total record when the new total is zero. -/
def applyLock (s : Store) (lockHash : Nat) (info : LockInfo) : Option Store :=
  let s1 := { s with
    globalHash := fun k => if k = lockHash then some HashType.lock else s.globalHash k }
  let s2 :=
    match info.script_opt with
    | some script =>
      { s1 with lockScript := fun k => if k = lockHash then some script else s1.lockScript k }
    | none => s1
  let s3 :=
    match info.address_opt with
    | some address =>
      { s2 with secpAddrLock := fun k => if k = address then some lockHash else s2.secpAddrLock k }
    | none => s2
  let s4 := { s3 with
    lockTotalCapacityIndex := fun k =>
      if k = (info.old_total_capacity, lockHash) then false else s3.lockTotalCapacityIndex k }
  if info.new_total_capacity > 0 then
    some { s4 with
      lockTotalCapacity := fun k =>
        if k = lockHash then some info.new_total_capacity else s4.lockTotalCapacity k
      lockTotalCapacityIndex := fun k =>
        if k = (info.new_total_capacity, lockHash) then true
        else if k = (info.old_total_capacity, lockHash) then false
        else s3.lockTotalCapacityIndex k }
  else
    match s4.lockTotalCapacity lockHash with
    | none => none
    | some _ =>
      some { s4 with
        lockTotalCapacity := fun k => if k = lockHash then none else s4.lockTotalCapacity k }

/-- Embeds the lock loop of `apply`. -/
def applyLocks : Store → LockMap → Option Store
  | s, [] => some s
  | s, (h, i) :: rest =>
    match applyLock s h i with
    | none => none
    | some s' => applyLocks s' rest

/-- Ordered insert (with overwrite on an equal key) into the sorted
recent-header index, the effect of `put_pair(pair_recent_header(..))`
under big-endian number keys. -/
def insertRecentHeader : List (Nat × HeaderInfo) → Nat → HeaderInfo → List (Nat × HeaderInfo)
  | [], n, hi => [(n, hi)]
  | (m, x) :: rest, n, hi =>
    if n < m then (n, hi) :: (m, x) :: rest
    else if n = m then (n, hi) :: rest
    else (m, x) :: insertRecentHeader rest n hi

/-- Store delete with `unwrap` on a recent-header record. -/
def deleteRecentHeader (hs : List (Nat × HeaderInfo)) (n : Nat) :
    Option (List (Nat × HeaderInfo)) :=
  if (hs.map Prod.fst).contains n then some (hs.filter (fun p => p.1 ≠ n)) else none

/-- Embeds the old-header cleanup loop of `apply`. -/
def deleteRecentHeaders : List (Nat × HeaderInfo) → List Nat → Option (List (Nat × HeaderInfo))
  | hs, [] => some hs
  | hs, n :: rest =>
    match deleteRecentHeader hs n with
    | none => none
    | some hs' => deleteRecentHeaders hs' rest

/-- Embeds `BlockDeltaInfo::apply` (types.rs lines 226-403).  The signed
capacity delta is the 128-bit difference narrowed to `i64` by the `as`
cast, hence wrapping.  The cell counters, accumulated in the transaction
loop of the source, are the corresponding sums. -/
def applyDelta (d : BlockDeltaInfo) (s : Store) : Option (ApplyResult × Store) :=
  let capacity_delta := i64ofWrap (u128sub d.new_chain_capacity d.old_chain_capacity)
  let result : ApplyResult :=
    { chain_capacity := d.new_chain_capacity
      capacity_delta := capacity_delta
      txs := d.txs.length
      cell_removed := (d.txs.map (fun t => t.inputs.length)).sum
      cell_added := (d.txs.map (fun t => t.outputs.length)).sum }
  match applyTxs s d.txs with
  | none => none
  | some s1 =>
    match applyLocks s1 d.locks with
    | none => none
    | some s2 =>
      let s3 := { s2 with totalCapacity := some d.new_chain_capacity }
      let headerInfo : HeaderInfo :=
        { header := d.header
          txs_size := result.txs
          uncles_size := d.uncles_size
          proposals_size := d.proposals_size
          chain_capacity := result.chain_capacity
          capacity_delta := result.capacity_delta
          cell_removed := result.cell_removed
          cell_added := result.cell_added }
      let s4 := { s3 with
        recentHeaders := insertRecentHeader s3.recentHeaders d.header.number headerInfo }
      match deleteRecentHeaders s4.recentHeaders d.old_headers with
      | none => none
      | some hs =>
        some (result, { s4 with recentHeaders := hs, lastHeader := some d.header })

/-- Diff-then-apply for one block: `from_block` followed by `apply`. -/
def processBlock (secp : Nat) (fla : List Nat → Option Nat) (sh : Script → Nat)
    (b : Block) (s : Store) : Option Store :=
  match fromBlock secp fla sh b s with
  | none => none
  | some (d, s') =>
    match applyDelta d s' with
    | none => none
    | some (_, s'') => some s''

/-- Sequential application of a list of blocks. -/
def applyChain (secp : Nat) (fla : List Nat → Option Nat) (sh : Script → Nat) :
    List Block → Store → Option Store
  | [], s => some s
  | b :: bs, s =>
    match processBlock secp fla sh b s with
    | none => none
    | some s' => applyChain secp fla sh bs s'

/-- Out-points of the cells produced by a transaction: one per output, at
this transaction's hash. -/
def txProducedOps (tx : Tx) : List CellOutPoint :=
  (List.range tx.outputs.length).map (fun i => { tx_hash := tx.hash, index := i })

/-- Out-points consumed by a transaction (cellbase inputs carry no
previous output and are skipped). -/
def txConsumedOps (tx : Tx) : List CellOutPoint :=
  tx.inputs.filterMap id

/-- Out-points produced by a block. -/
def blockProducedOps (b : Block) : List CellOutPoint :=
  b.transactions.flatMap txProducedOps

/-- Out-points consumed by a block. -/
def blockConsumedOps (b : Block) : List CellOutPoint :=
  b.transactions.flatMap txConsumedOps

/-- Out-points produced across a chain of blocks. -/
def producedOps (bs : List Block) : List CellOutPoint :=
  bs.flatMap blockProducedOps

/-- Out-points consumed across a chain of blocks. -/
def consumedOps (bs : List Block) : List CellOutPoint :=
  bs.flatMap blockConsumedOps

/-- Formula stated by the spec for the chain-wide total: exact
(non-overflowing) arithmetic over the touched locks' totals. -/
def specNewChainCapacity (oldChain : Nat) (locks : LockMap) : Nat :=
  oldChain + (locks.map (fun p => p.2.new_total_capacity)).sum
    - (locks.map (fun p => p.2.old_total_capacity)).sum

/-- Store for the C1 counterexample: two live cells owned by two distinct
locks whose persisted totals are each `2 ^ 63`, and a chain total of
`2 ^ 64`. -/
def c1Store : Store :=
  { emptyStore with
      liveCellMap := fun op =>
        if op = { tx_hash := 1, index := 0 } then
          some { out_point := { tx_hash := 1, index := 0 }, lock_hash := 100,
                 capacity := 1, number := 0, index := { tx_index := 0, output_index := 0 } }
        else if op = { tx_hash := 2, index := 0 } then
          some { out_point := { tx_hash := 2, index := 0 }, lock_hash := 200,
                 capacity := 1, number := 0, index := { tx_index := 0, output_index := 1 } }
        else none
      lockTotalCapacity := fun hsh =>
        if hsh = 100 then some (2 ^ 63) else if hsh = 200 then some (2 ^ 63) else none
      totalCapacity := some (2 ^ 64) }

/-- Block for the C1 counterexample: one transaction spending both cells. -/
def c1Block : Block :=
  { header := { number := 1, timestamp := 0 }, uncles := 0, proposals := 0,
    transactions := [{ hash := 3,
                       inputs := [some { tx_hash := 1, index := 0 },
                                  some { tx_hash := 2, index := 0 }],
                       outputs := [] }] }

/-- Block for the C3 counterexample: a single transaction creating
`2 ^ 63` of capacity out of nothing, so the chain delta does not fit in a
signed 64-bit integer. -/
def c3Block : Block :=
  { header := { number := 0, timestamp := 0 }, uncles := 0, proposals := 0,
    transactions := [{ hash := 1, inputs := [],
                       outputs := [{ lock := { code_hash := 5, args := [] },
                                     capacity := 2 ^ 63 }] }] }

/-- Delta for the C3 amended witness: an in-range capacity change. -/
def c3wDelta : BlockDeltaInfo :=
  { header := { number := 0, timestamp := 0 }, txs := [], locks := [], old_headers := [],
    old_chain_capacity := 2, new_chain_capacity := 5, uncles_size := 0, proposals_size := 0 }

/-- Out-points produced by a list of rich transaction records. -/
def richProduced (txs : List RichTxInfo) : List CellOutPoint :=
  txs.flatMap (fun t => t.outputs.map (fun i => i.out_point))

/-- Out-points consumed by a list of rich transaction records. -/
def richConsumed (txs : List RichTxInfo) : List CellOutPoint :=
  txs.flatMap (fun t => t.inputs.map (fun i => i.out_point))

/-- Blocks realizing the two-block scenario of the spec: a genesis output
of 5000 to one lock, then a transaction spending it into outputs of 2000
and 2900 to two locks. -/
def c5Blocks : List Block :=
  [{ header := { number := 0, timestamp := 0 }, uncles := 0, proposals := 0,
     transactions := [{ hash := 10, inputs := [none],
                        outputs := [{ lock := { code_hash := 1, args := [] },
                                      capacity := 5000 }] }] },
   { header := { number := 1, timestamp := 0 }, uncles := 0, proposals := 0,
     transactions := [{ hash := 20, inputs := [some { tx_hash := 10, index := 0 }],
                        outputs := [{ lock := { code_hash := 1, args := [] },
                                      capacity := 2000 },
                                    { lock := { code_hash := 2, args := [] },
                                      capacity := 2900 }] }] }]

/-- Characterization of a successful `add_input`: the precondition of the
assertion held and the fields moved as the source writes them. -/
theorem add_input_eq_some {info info1 : LockInfo} {c : Nat}
    (h : info.add_input c = some info1) :
    c ≤ info.new_total_capacity ∧
      info1 = { info with
                  inputs_capacity := (info.inputs_capacity + c) % u64M
                  new_total_capacity := info.new_total_capacity - c } := by
  unfold LockInfo.add_input at h
  split at h
  · rename_i hc
    simp only [Option.some.injEq] at h
    exact ⟨hc, h.symm⟩
  · exact Option.noConfusion h

/-- Running-counter reconciliation is preserved by a successful sequence
of `add_input`/`add_output` calls, and `old_total_capacity` never moves. -/
theorem runLockOps_invariant (ops : List LockOp) :
    ∀ info info', runLockOps info ops = some info' →
      ((info.old_total_capacity + info.outputs_capacity) % u64M
          = (info.new_total_capacity + info.inputs_capacity) % u64M →
        (info'.old_total_capacity + info'.outputs_capacity) % u64M
          = (info'.new_total_capacity + info'.inputs_capacity) % u64M)
      ∧ info'.old_total_capacity = info.old_total_capacity := by
  induction ops with
  | nil =>
    intro info info' h
    simp only [runLockOps, Option.some.injEq] at h
    subst h
    exact ⟨fun hinv => hinv, rfl⟩
  | cons op rest ih =>
    intro info info' h
    cases op with
    | input c =>
      simp only [runLockOps] at h
      cases hadd : info.add_input c with
      | none => rw [hadd] at h; exact Option.noConfusion h
      | some info1 =>
        rw [hadd] at h
        obtain ⟨hc, hinfo1⟩ := add_input_eq_some hadd
        subst hinfo1
        obtain ⟨hrec, hold⟩ := ih _ info' h
        dsimp only at hrec hold
        refine ⟨fun hinv => hrec ?_, hold⟩
        rw [Nat.add_mod_mod]
        have e : info.new_total_capacity - c + (info.inputs_capacity + c)
            = info.new_total_capacity + info.inputs_capacity := by omega
        rw [e]
        exact hinv
    | output c =>
      simp only [runLockOps] at h
      obtain ⟨hrec, hold⟩ := ih _ info' h
      unfold LockInfo.add_output at hrec hold
      dsimp only at hrec hold
      refine ⟨fun hinv => hrec ?_, hold⟩
      rw [Nat.add_mod_mod, Nat.mod_add_mod]
      have e1 : info.old_total_capacity + (info.outputs_capacity + c)
          = info.old_total_capacity + info.outputs_capacity + c := by omega
      have e2 : info.new_total_capacity + c + info.inputs_capacity
          = info.new_total_capacity + info.inputs_capacity + c := by omega
      rw [e1, e2, Nat.add_mod (info.old_total_capacity + info.outputs_capacity) c,
        Nat.add_mod (info.new_total_capacity + info.inputs_capacity) c, hinv]

/-- C2: `add_input(capacity)` succeeds exactly when `capacity` does not
exceed the current `new_total_capacity`, in which case the total decreases
by exactly `capacity` and cannot go below zero; when `capacity` exceeds
the total, the assertion fires (a fatal panic, modelled as `none`) instead
of wrapping or clamping. -/
theorem c2_add_input_guard (info : LockInfo) (c : Nat) :
    (c ≤ info.new_total_capacity →
      info.add_input c = some { info with
        inputs_capacity := (info.inputs_capacity + c) % u64M
        new_total_capacity := info.new_total_capacity - c }) ∧
    (info.new_total_capacity < c → info.add_input c = none) ∧
    (∀ info', info.add_input c = some info' →
      info'.new_total_capacity + c = info.new_total_capacity) := by
  refine ⟨?_, ?_, ?_⟩
  · intro hc
    unfold LockInfo.add_input
    rw [if_pos hc]
  · intro hc
    unfold LockInfo.add_input
    rw [if_neg (by omega)]
  · intro info' h
    obtain ⟨hc, hinfo⟩ := add_input_eq_some h
    subst hinfo
    dsimp only
    omega

/-- Witness for C2 at concrete inputs: consuming 3 out of 5 succeeds and
leaves 2; consuming 7 out of 2 is the fatal path. -/
theorem c2_add_input_guard_witness :
    (LockInfo.new 5).add_input 3
        = some { script_opt := none, address_opt := none, old_total_capacity := 5,
                 new_total_capacity := 2, inputs_capacity := 3, outputs_capacity := 0 }
      ∧ (LockInfo.new 2).add_input 7 = none := by
  constructor
  · exact ((c2_add_input_guard (LockInfo.new 5) 3).1 (by decide)).trans (by decide)
  · exact (c2_add_input_guard (LockInfo.new 2) 7).2.1 (by decide)

/-- C10: starting from `LockInfo::new c`, every successful interleaving of
`add_input`/`add_output` calls preserves the reconciliation equation
`new_total_capacity = old_total_capacity - inputs_capacity + outputs_capacity`
modulo `2 ^ 64` (stated additively, without natural subtraction), and
`old_total_capacity` stays `c`. -/
theorem c10_lockinfo_reconciliation (c : Nat) (ops : List LockOp) (info' : LockInfo)
    (h : runLockOps (LockInfo.new c) ops = some info') :
    (info'.old_total_capacity + info'.outputs_capacity) % u64M
        = (info'.new_total_capacity + info'.inputs_capacity) % u64M
      ∧ info'.old_total_capacity = c := by
  obtain ⟨hrec, hold⟩ := runLockOps_invariant ops (LockInfo.new c) info' h
  exact ⟨hrec rfl, hold⟩

/-- Witness for C10: a concrete interleaving whose counters reconcile. -/
theorem c10_lockinfo_reconciliation_witness :
    runLockOps (LockInfo.new 10)
        [LockOp.output 7, LockOp.input 5, LockOp.input 12, LockOp.output 1]
      = some { script_opt := none, address_opt := none, old_total_capacity := 10,
               new_total_capacity := 1, inputs_capacity := 17, outputs_capacity := 8 }
      ∧ (10 + 8) % u64M = (1 + 17) % u64M := by
  refine ⟨by decide, ?_⟩
  exact (c10_lockinfo_reconciliation 10
    [LockOp.output 7, LockOp.input 5, LockOp.input 12, LockOp.output 1]
    { script_opt := none, address_opt := none, old_total_capacity := 10,
      new_total_capacity := 1, inputs_capacity := 17, outputs_capacity := 8 }
    (by decide)).1

/-- C9: `set_script` always records the script and is total (no error
path); a short address is resolved exactly when the code hash is the
recognized standard hash, there is exactly one argument, and the external
parser accepts it; in every other case the address is left `none`. -/
theorem c9_set_script_advisory (secp : Nat) (fla : List Nat → Option Nat)
    (info : LockInfo) (script : Script) :
    (info.set_script secp fla script).script_opt = some script
    ∧ (script.code_hash ≠ secp → (info.set_script secp fla script).address_opt = none)
    ∧ (script.args.length ≠ 1 → (info.set_script secp fla script).address_opt = none)
    ∧ (∀ arg, script.code_hash = secp → script.args = [arg] →
        (info.set_script secp fla script).address_opt = fla arg) := by
  unfold LockInfo.set_script
  refine ⟨rfl, ?_, ?_, ?_⟩
  · intro hne
    dsimp only
    rw [if_neg hne]
  · intro hne
    dsimp only
    by_cases hch : script.code_hash = secp
    · rw [if_pos hch, if_neg hne]
    · rw [if_neg hch]
  · intro arg hch hargs
    dsimp only
    rw [if_pos hch, hargs]
    dsimp only [List.headD]
    rw [if_pos (show ([arg]).length = 1 from rfl)]
    cases fla arg <;> rfl

/-- Witness for C9: a wrong code hash leaves the address unresolved while
the script is recorded; the standard shape resolves. -/
theorem c9_set_script_advisory_witness :
    ((LockInfo.new 0).set_script 1 (fun _ => some 42)
        { code_hash := 2, args := [] }).address_opt = none
      ∧ ((LockInfo.new 0).set_script 1 (fun _ => some 42)
          { code_hash := 2, args := [] }).script_opt = some { code_hash := 2, args := [] }
      ∧ ((LockInfo.new 0).set_script 1 (fun _ => some 42)
          { code_hash := 1, args := [[3]] }).address_opt = some 42 := by
  refine ⟨?_, ?_, ?_⟩
  · exact (c9_set_script_advisory 1 (fun _ => some 42) (LockInfo.new 0) _).2.1 (by decide)
  · exact (c9_set_script_advisory 1 (fun _ => some 42) (LockInfo.new 0) _).1
  · exact (c9_set_script_advisory 1 (fun _ => some 42) (LockInfo.new 0) _).2.2.2 [3] rfl rfl

/-- Unfolding of `bytesLt` on two cons cells, as a proposition. -/
theorem bytesLt_cons_iff (a b : Nat) (as' bs' : List Nat) :
    bytesLt (a :: as') (b :: bs') = true ↔ a < b ∨ (a = b ∧ bytesLt as' bs' = true) := by
  simp only [bytesLt]
  split_ifs with h1 h2 <;> simp_all

/-- The empty byte string is not below itself. -/
theorem bytesLt_nil_iff : bytesLt [] [] = true ↔ False := by
  simp [bytesLt]

/-- Big-endian digit-wise lexicographic comparison (with an arbitrary
continuation `X` on full equality) agrees with numeric comparison for
32-bit values. -/
theorem u32lex (m n : Nat) (hm : m < u32M) (hn : n < u32M) (X : Prop) :
    (m / 2 ^ 24 % 256 < n / 2 ^ 24 % 256 ∨ (m / 2 ^ 24 % 256 = n / 2 ^ 24 % 256 ∧
      (m / 2 ^ 16 % 256 < n / 2 ^ 16 % 256 ∨ (m / 2 ^ 16 % 256 = n / 2 ^ 16 % 256 ∧
        (m / 2 ^ 8 % 256 < n / 2 ^ 8 % 256 ∨ (m / 2 ^ 8 % 256 = n / 2 ^ 8 % 256 ∧
          (m % 256 < n % 256 ∨ (m % 256 = n % 256 ∧ X))))))))
      ↔ (m < n ∨ (m = n ∧ X)) := by
  unfold u32M at hm hn
  have rm : ((m / 2 ^ 24 % 256 * 256 + m / 2 ^ 16 % 256) * 256 + m / 2 ^ 8 % 256) * 256
      + m % 256 = m := by omega
  have rn : ((n / 2 ^ 24 % 256 * 256 + n / 2 ^ 16 % 256) * 256 + n / 2 ^ 8 % 256) * 256
      + n % 256 = n := by omega
  constructor
  · intro hd
    rcases hd with h | ⟨e3, hd⟩
    · left; omega
    rcases hd with h | ⟨e2, hd⟩
    · left; omega
    rcases hd with h | ⟨e1, hd⟩
    · left; omega
    rcases hd with h | ⟨e0, hX⟩
    · left; omega
    · right; exact ⟨by omega, hX⟩
  · intro hd
    rcases hd with h | ⟨e, hX⟩
    · rcases Nat.lt_trichotomy (m / 2 ^ 24 % 256) (n / 2 ^ 24 % 256) with h3 | h3 | h3
      · exact Or.inl h3
      · refine Or.inr ⟨h3, ?_⟩
        rcases Nat.lt_trichotomy (m / 2 ^ 16 % 256) (n / 2 ^ 16 % 256) with h2' | h2' | h2'
        · exact Or.inl h2'
        · refine Or.inr ⟨h2', ?_⟩
          rcases Nat.lt_trichotomy (m / 2 ^ 8 % 256) (n / 2 ^ 8 % 256) with hx | hx | hx
          · exact Or.inl hx
          · refine Or.inr ⟨hx, Or.inl ?_⟩
            omega
          · exfalso; omega
        · exfalso; omega
      · exfalso; omega
    · exact Or.inr ⟨by omega, Or.inr ⟨by omega, Or.inr ⟨by omega, Or.inr ⟨by omega, hX⟩⟩⟩⟩

/-- C7: the `CellIndex` byte codec round-trips, always yields exactly 8
bytes (big-endian `tx_index` then big-endian `output_index`), and the
lexicographic order of encodings coincides with the lexicographic order
of the (tx_index, output_index) pairs, so ordered key iteration yields
block order. -/
theorem c7_cellindex_codec (x y : CellIndex)
    (hx1 : x.tx_index < u32M) (hx2 : x.output_index < u32M)
    (hy1 : y.tx_index < u32M) (hy2 : y.output_index < u32M) :
    CellIndex.from_bytes (CellIndex.to_bytes x) = x
    ∧ (CellIndex.to_bytes x).length = 8
    ∧ (bytesLt (CellIndex.to_bytes x) (CellIndex.to_bytes y) = true ↔ cellIndexLt x y) := by
  obtain ⟨a, b⟩ := x
  obtain ⟨c, d⟩ := y
  simp only at hx1 hx2 hy1 hy2
  refine ⟨?_, rfl, ?_⟩
  · have hu : u32M = 2 ^ 32 := rfl
    rw [hu] at hx1 hx2
    simp only [CellIndex.to_bytes, u32be, List.cons_append, List.nil_append,
      CellIndex.from_bytes, beVal, CellIndex.mk.injEq]
    constructor <;> omega
  · simp only [CellIndex.to_bytes, u32be, List.cons_append, List.nil_append,
      bytesLt_cons_iff, bytesLt_nil_iff]
    rw [u32lex b d hx2 hy2 False, u32lex a c hx1 hy1 (b < d ∨ (b = d ∧ False))]
    simp only [cellIndexLt]
    tauto

/-- Witness for C7 at concrete indices. -/
theorem c7_cellindex_codec_witness :
    CellIndex.from_bytes (CellIndex.to_bytes ⟨1, 2⟩) = ⟨1, 2⟩
    ∧ (CellIndex.to_bytes ⟨1, 2⟩).length = 8
    ∧ (bytesLt (CellIndex.to_bytes ⟨1, 2⟩) (CellIndex.to_bytes ⟨1, 3⟩) = true
        ↔ cellIndexLt ⟨1, 2⟩ ⟨1, 3⟩) :=
  c7_cellindex_codec ⟨1, 2⟩ ⟨1, 3⟩ (by decide) (by decide) (by decide) (by decide)

/-- Inversion of a successful `fromBlock`: the store is returned untouched
and every field of the delta is determined by the reads performed. -/
theorem fromBlock_inv (secp : Nat) (fla : List Nat → Option Nat) (sh : Script → Nat)
    (b : Block) (s : Store) (d : BlockDeltaInfo) (s' : Store)
    (h : fromBlock secp fla sh b s = some (d, s')) :
    s' = s ∧ d.header = b.header
    ∧ d.old_headers = collectOldHeaders s.recentHeaders b.header.number
    ∧ d.old_chain_capacity = s.totalCapacity.getD 0
    ∧ d.new_chain_capacity =
        u128add (u128sub (s.totalCapacity.getD 0)
            (u64sum (d.locks.map (fun p => p.2.old_total_capacity))))
          (u64sum (d.locks.map (fun p => p.2.new_total_capacity)))
    ∧ processTxs secp fla sh s b.header.number b.header.timestamp 0 [] b.transactions
        = some (d.txs, d.locks) := by
  unfold fromBlock at h
  dsimp only at h
  split at h
  · exact Option.noConfusion h
  · rename_i txs locks heq
    simp only [Option.some.injEq, Prod.mk.injEq] at h
    obtain ⟨hd, hs⟩ := h
    subst hd
    subst hs
    exact ⟨rfl, rfl, rfl, rfl, rfl, heq⟩

/-- C8: `from_block` performs no store writes or deletes for any input
block and store: a successful run returns the store state it received. -/
theorem c8_from_block_no_writes (secp : Nat) (fla : List Nat → Option Nat)
    (sh : Script → Nat) (b : Block) (s : Store) (p : BlockDeltaInfo × Store)
    (h : fromBlock secp fla sh b s = some p) : p.2 = s :=
  (fromBlock_inv secp fla sh b s p.1 p.2 (by rw [h])).1

/-- Witness for C8: a concrete successful run returning the store intact. -/
theorem c8_from_block_no_writes_witness :
    fromBlock 0 (fun _ => none) (fun sc => sc.code_hash)
        { header := { number := 0, timestamp := 0 }, uncles := 0, proposals := 0,
          transactions := [] } emptyStore
      = some ({ header := { number := 0, timestamp := 0 }, txs := [], locks := [],
                old_headers := [], old_chain_capacity := 0, new_chain_capacity := 0,
                uncles_size := 0, proposals_size := 0 }, emptyStore)
    ∧ (({ header := { number := 0, timestamp := 0 }, txs := [], locks := [],
          old_headers := [], old_chain_capacity := 0, new_chain_capacity := 0,
          uncles_size := 0, proposals_size := 0 }, emptyStore) :
        BlockDeltaInfo × Store).2 = emptyStore :=
  ⟨rfl,
    c8_from_block_no_writes 0 (fun _ => none) (fun sc => sc.code_hash)
      { header := { number := 0, timestamp := 0 }, uncles := 0, proposals := 0,
        transactions := [] } emptyStore _ rfl⟩

/-- A resolvable input whose live-cell record is missing makes the input
scan of `from_block` fail, whatever else the transaction contains. -/
theorem processInputs_missing (s : Store) :
    ∀ (ins : List (Option CellOutPoint)) (locks : LockMap) (op : CellOutPoint),
      some op ∈ ins → s.liveCellMap op = none →
      processInputs s locks ins = none := by
  intro ins
  induction ins with
  | nil =>
    intro locks op hmem
    cases hmem
  | cons hd rest ih =>
    intro locks op hmem hnone
    cases hd with
    | none =>
      have hmem' : some op ∈ rest := by
        cases hmem with
        | tail _ h => exact h
      exact ih locks op hmem' hnone
    | some op0 =>
      simp only [processInputs]
      cases hl : s.liveCellMap op0 with
      | none => rfl
      | some info =>
        have hmem' : some op ∈ rest := by
          cases hmem with
          | head =>
            rw [hl] at hnone
            exact Option.noConfusion hnone
          | tail _ h => exact h
        dsimp only
        cases hadd : (lockGet s locks info.lock_hash).add_input info.capacity with
        | none => rfl
        | some li =>
          dsimp only
          rw [ih (lockUpdate locks info.lock_hash li) op hmem' hnone]

/-- Lifting of `processInputs_missing` over the transaction list. -/
theorem processTxs_missing (secp : Nat) (fla : List Nat → Option Nat) (sh : Script → Nat)
    (s : Store) (number timestamp : Nat) :
    ∀ (txs : List Tx) (txIndex : Nat) (locks : LockMap),
      (∃ tx, tx ∈ txs ∧ ∃ op, some op ∈ tx.inputs ∧ s.liveCellMap op = none) →
      processTxs secp fla sh s number timestamp txIndex locks txs = none := by
  intro txs
  induction txs with
  | nil =>
    intro txIndex locks h
    obtain ⟨tx, hmem, _⟩ := h
    cases hmem
  | cons tx rest ih =>
    intro txIndex locks h
    obtain ⟨tx', hmem, op, hop, hnone⟩ := h
    simp only [processTxs]
    cases hmem with
    | head =>
      have : processTx secp fla sh s number timestamp txIndex tx locks = none := by
        unfold processTx
        rw [processInputs_missing s tx.inputs locks op hop hnone]
      rw [this]
    | tail _ hmem' =>
      cases hpt : processTx secp fla sh s number timestamp txIndex tx locks with
      | none => rfl
      | some p =>
        obtain ⟨rich, locks'⟩ := p
        dsimp only
        rw [ih (txIndex + 1) locks' ⟨tx', hmem', op, hop, hnone⟩]

/-- C6: an input that references an out-point absent from the
live-cell-by-origin index (unknown or previously spent) makes the whole
diff computation for the block fail fatally; the input is never skipped. -/
theorem c6_unknown_input_fatal (secp : Nat) (fla : List Nat → Option Nat)
    (sh : Script → Nat) (b : Block) (s : Store)
    (h : ∃ tx, tx ∈ b.transactions ∧ ∃ op, some op ∈ tx.inputs ∧ s.liveCellMap op = none) :
    fromBlock secp fla sh b s = none := by
  unfold fromBlock
  dsimp only
  rw [processTxs_missing secp fla sh s b.header.number b.header.timestamp
    b.transactions 0 [] h]

/-- Witness for C6: a single transaction spending an out-point unknown to
the empty store. -/
theorem c6_unknown_input_fatal_witness :
    fromBlock 0 (fun _ => none) (fun sc => sc.code_hash)
        { header := { number := 0, timestamp := 0 }, uncles := 0, proposals := 0,
          transactions := [{ hash := 1, inputs := [some { tx_hash := 0, index := 0 }],
                             outputs := [] }] }
        emptyStore = none :=
  c6_unknown_input_fatal 0 (fun _ => none) (fun sc => sc.code_hash) _ emptyStore
    ⟨{ hash := 1, inputs := [some { tx_hash := 0, index := 0 }], outputs := [] },
      List.Mem.head _, { tx_hash := 0, index := 0 }, List.Mem.head _, rfl⟩

/-- Accumulator form: a wrapping fold adds up exactly while it stays
below `2 ^ 64`. -/
theorem u64sum_go (l : List Nat) : ∀ acc, acc + l.sum < u64M →
    l.foldl (fun a b => (a + b) % u64M) acc = acc + l.sum := by
  induction l with
  | nil =>
    intro acc _
    simp
  | cons x rest ih =>
    intro acc hacc
    simp only [List.sum_cons] at hacc
    simp only [List.foldl_cons, List.sum_cons]
    have hx : (acc + x) % u64M = acc + x := Nat.mod_eq_of_lt (by omega)
    rw [hx, ih (acc + x) (by omega)]
    omega

/-- A `u64` sum equals the exact sum when the exact sum fits in 64 bits. -/
theorem u64sum_eq_sum (l : List Nat) (h : l.sum < u64M) : u64sum l = l.sum := by
  unfold u64sum
  simpa using u64sum_go l 0 (by simpa using h)




/-- C1 counterexample: with two touched locks of `2 ^ 63` each, the `u64`
sums wrap before being widened to 128 bits, and the computed new chain
capacity differs from the exact conservation formula the claim states. -/
theorem c1_counterexample :
    ((fromBlock 0 (fun _ => none) (fun sc => sc.code_hash) c1Block c1Store).map
        (fun p => decide (p.1.new_chain_capacity
          = specNewChainCapacity p.1.old_chain_capacity p.1.locks)))
      = some false := by
  decide

/-- C1 (amended): the per-lock sums are computed in 64-bit arithmetic and
only then widened to 128 bits; whenever the exact sums fit in 64 bits and
the 128-bit combination neither underflows nor overflows, the computed
new chain capacity equals the exact conservation formula
`old - sum(old touched totals) + sum(new touched totals)`. -/
theorem c1_amended_conservation (secp : Nat) (fla : List Nat → Option Nat)
    (sh : Script → Nat) (b : Block) (s : Store) (d : BlockDeltaInfo) (s' : Store)
    (h : fromBlock secp fla sh b s = some (d, s'))
    (holds : (d.locks.map (fun p => p.2.old_total_capacity)).sum < u64M)
    (hnews : (d.locks.map (fun p => p.2.new_total_capacity)).sum < u64M)
    (hle : (d.locks.map (fun p => p.2.old_total_capacity)).sum ≤ d.old_chain_capacity)
    (hfit : d.old_chain_capacity + (d.locks.map (fun p => p.2.new_total_capacity)).sum
        < u128M + (d.locks.map (fun p => p.2.old_total_capacity)).sum) :
    d.new_chain_capacity = specNewChainCapacity d.old_chain_capacity d.locks := by
  obtain ⟨-, -, -, hold, hnew, -⟩ := fromBlock_inv secp fla sh b s d s' h
  rw [hnew, ← hold, u64sum_eq_sum _ holds, u64sum_eq_sum _ hnews]
  unfold u128add u128sub specNewChainCapacity u64M u128M at *
  omega

/-- Witness for the amended C1 on a concrete in-range run. -/
theorem c1_amended_conservation_witness : (0 : Nat) = specNewChainCapacity 0 [] :=
  c1_amended_conservation 0 (fun _ => none) (fun sc => sc.code_hash)
    { header := { number := 0, timestamp := 0 }, uncles := 0, proposals := 0,
      transactions := [] } emptyStore
    { header := { number := 0, timestamp := 0 }, txs := [], locks := [],
      old_headers := [], old_chain_capacity := 0, new_chain_capacity := 0,
      uncles_size := 0, proposals_size := 0 } emptyStore
    rfl (by decide) (by decide) (by decide) (by decide)

/-- Inversion of a successful `apply`: the returned summary's delta and
capacity fields are exactly the ones computed at the top of `apply`. -/
theorem applyDelta_result (d : BlockDeltaInfo) (s : Store) (r : ApplyResult) (s' : Store)
    (h : applyDelta d s = some (r, s')) :
    r.capacity_delta = i64ofWrap (u128sub d.new_chain_capacity d.old_chain_capacity)
    ∧ r.chain_capacity = d.new_chain_capacity := by
  unfold applyDelta at h
  dsimp only at h
  split at h
  · exact Option.noConfusion h
  · split at h
    · exact Option.noConfusion h
    · split at h
      · exact Option.noConfusion h
      · simp only [Option.some.injEq, Prod.mk.injEq] at h
        obtain ⟨hr, -⟩ := h
        subst hr
        exact ⟨rfl, rfl⟩

/-- The wrapped `i64` narrowing of a 128-bit difference is exact when the
difference fits in the signed 64-bit range. -/
theorem i64ofWrap_exact (a b : Nat)
    (hlo : -(2 ^ 63 : Int) ≤ (a : Int) - (b : Int))
    (hhi : (a : Int) - (b : Int) < 2 ^ 63) :
    i64ofWrap (u128sub a b) = (a : Int) - (b : Int) := by
  unfold i64ofWrap u128sub u64M u128M at *
  split_ifs with hc
  · omega
  · omega


/-- C3 counterexample: a chain-capacity increase of `2 ^ 63` is applied
without any failure and the returned delta is the silently wrapped
negative value, not the true difference. -/
theorem c3_counterexample :
    ((fromBlock 0 (fun _ => none) (fun sc => sc.code_hash) c3Block emptyStore).bind
        (fun p => (applyDelta p.1 p.2).map (fun q => q.1.capacity_delta)))
      = some (-(2 ^ 63 : Int))
    ∧ ((2 ^ 63 : Int) - (0 : Int) ≠ -(2 ^ 63 : Int)) := by
  exact ⟨by decide, by decide⟩

/-- C3 (amended): the delta returned by `apply` is the 128-bit difference
narrowed to `i64` with wrap-around semantics; it is exact whenever the
true difference fits in `i64`, and wraps silently (no failure) otherwise. -/
theorem c3_amended_delta (d : BlockDeltaInfo) (s : Store) (r : ApplyResult) (s' : Store)
    (h : applyDelta d s = some (r, s')) :
    r.capacity_delta = i64ofWrap (u128sub d.new_chain_capacity d.old_chain_capacity)
    ∧ (-(2 ^ 63 : Int) ≤ (d.new_chain_capacity : Int) - (d.old_chain_capacity : Int) →
        (d.new_chain_capacity : Int) - (d.old_chain_capacity : Int) < 2 ^ 63 →
        r.capacity_delta = (d.new_chain_capacity : Int) - (d.old_chain_capacity : Int)) := by
  obtain ⟨h1, -⟩ := applyDelta_result d s r s' h
  exact ⟨h1, fun hlo hhi => h1.trans (i64ofWrap_exact _ _ hlo hhi)⟩


/-- Witness for the amended C3: an in-range delta comes out exact. -/
theorem c3_amended_delta_witness :
    ((applyDelta c3wDelta emptyStore).map (fun p => p.1.capacity_delta))
      = some ((5 : Int) - (2 : Int)) := by
  cases hh : applyDelta c3wDelta emptyStore with
  | none =>
    have hs : (applyDelta c3wDelta emptyStore).isSome = true := by decide
    rw [hh] at hs
    exact Bool.noConfusion hs
  | some p =>
    have hd := c3_amended_delta c3wDelta emptyStore p.1 p.2 (by rw [hh])
    have he := hd.2 (by decide) (by decide)
    rw [Option.map_some', he]
    decide

/-- The old-header collection depends only on the key (number) sequence. -/
theorem collectOldHeaders_eq_nums (number : Nat) :
    ∀ hs : List (Nat × HeaderInfo),
      collectOldHeaders hs number = collectOldNums (hs.map Prod.fst) number := by
  intro hs
  induction hs with
  | nil => rfl
  | cons p rest ih =>
    obtain ⟨n, hi⟩ := p
    simp only [collectOldHeaders, collectOldNums, List.map_cons]
    rw [ih]

/-- On an ascending key sequence the bounded prefix scan with early break
collects exactly the keys at least `KEEP_RECENT_HEADERS` older than the
new block number. -/
theorem collectOldNums_eq_filter (number : Nat) :
    ∀ hs : List Nat, hs.Pairwise (· < ·) →
      collectOldNums hs number
        = hs.filter (fun n => n + KEEP_RECENT_HEADERS ≤ number) := by
  intro hs
  induction hs with
  | nil => intro _; rfl
  | cons n rest ih =>
    intro hp
    simp only [collectOldNums, List.filter_cons, decide_eq_true_eq]
    by_cases hc : n + KEEP_RECENT_HEADERS ≤ number
    · rw [if_pos hc, if_pos hc, ih hp.of_cons]
    · rw [if_neg hc, if_neg hc]
      symm
      rw [List.filter_eq_nil_iff]
      intro m hm
      simp only [decide_eq_true_eq]
      have hlt : n < m := (List.pairwise_cons.mp hp).1 m hm
      omega

/-- Inserting a number above every present key appends it at the end. -/
theorem insertRecentHeader_keys_append (n : Nat) (hi : HeaderInfo) :
    ∀ hs : List (Nat × HeaderInfo), (∀ m ∈ hs.map Prod.fst, m < n) →
      (insertRecentHeader hs n hi).map Prod.fst = hs.map Prod.fst ++ [n] := by
  intro hs
  induction hs with
  | nil => intro _; rfl
  | cons p rest ih =>
    obtain ⟨m, x⟩ := p
    intro hlt
    have hm : m < n := hlt m (by simp)
    simp only [insertRecentHeader]
    rw [if_neg (by omega), if_neg (by omega)]
    simp only [List.map_cons, List.cons_append]
    rw [ih (fun k hk => hlt k (by simp [hk]))]

/-- A present key is deleted by filtering it out of the index. -/
theorem deleteRecentHeader_some (hs : List (Nat × HeaderInfo)) (n : Nat)
    (hmem : n ∈ hs.map Prod.fst) :
    deleteRecentHeader hs n = some (hs.filter (fun p => p.1 ≠ n)) := by
  unfold deleteRecentHeader
  rw [if_pos]
  simpa using hmem

/-- Keys of a key-filtered index. -/
theorem filter_keys (n : Nat) :
    ∀ hs : List (Nat × HeaderInfo),
      (hs.filter (fun p => p.1 ≠ n)).map Prod.fst
        = (hs.map Prod.fst).filter (fun m => m ≠ n) := by
  intro hs
  induction hs with
  | nil => rfl
  | cons p rest ih =>
    obtain ⟨m, x⟩ := p
    simp only [ne_eq, decide_not] at ih
    by_cases hm : m = n <;> simp [List.filter_cons, hm, ih]

/-- Inversion of a successful live-cell-by-origin delete: the record was
present, exactly that key is cleared, and nothing else changes. -/
theorem delLiveCellMap_inv {s : Store} {op : CellOutPoint} {s' : Store}
    (h : s.delLiveCellMap op = some s') :
    s'.liveCellMap = (fun k => if k = op then none else s.liveCellMap k)
    ∧ (s.liveCellMap op).isSome = true
    ∧ s'.recentHeaders = s.recentHeaders := by
  unfold Store.delLiveCellMap at h
  split at h
  · exact Option.noConfusion h
  · rename_i v hv
    simp only [Option.some.injEq] at h
    subst h
    exact ⟨rfl, by rw [hv]; rfl, rfl⟩

/-- Inversion of a successful live-cell-by-position delete: the
by-origin index and the recent-header index are untouched. -/
theorem delLiveCellIndex_inv {s : Store} {key : Nat × CellIndex} {s' : Store}
    (h : s.delLiveCellIndex key = some s') :
    s'.liveCellMap = s.liveCellMap ∧ s'.recentHeaders = s.recentHeaders := by
  unfold Store.delLiveCellIndex at h
  split at h
  · exact Option.noConfusion h
  · simp only [Option.some.injEq] at h
    subst h
    exact ⟨rfl, rfl⟩

/-- Inversion of a successful live-cell-by-lock-and-position delete: the
by-origin index and the recent-header index are untouched. -/
theorem delLockLiveCellIndex_inv {s : Store} {key : Nat × Nat × CellIndex} {s' : Store}
    (h : s.delLockLiveCellIndex key = some s') :
    s'.liveCellMap = s.liveCellMap ∧ s'.recentHeaders = s.recentHeaders := by
  unfold Store.delLockLiveCellIndex at h
  split at h
  · exact Option.noConfusion h
  · simp only [Option.some.injEq] at h
    subst h
    exact ⟨rfl, rfl⟩

/-- The consumed-cell loop of `apply`, on success: every consumed
out-point was present, exactly the consumed out-points are cleared from
the by-origin index, and the recent-header index is untouched. -/
theorem applyTxInputs_inv (txh : Nat) :
    ∀ (l : List LiveCellInfo) (s s' : Store), applyTxInputs txh s l = some s' →
      (∀ k, s'.liveCellMap k
        = if k ∈ l.map (fun i => i.out_point) then none else s.liveCellMap k)
      ∧ (∀ i ∈ l, (s.liveCellMap i.out_point).isSome = true)
      ∧ s'.recentHeaders = s.recentHeaders := by
  intro l
  induction l with
  | nil =>
    intro s s' h
    simp only [applyTxInputs, Option.some.injEq] at h
    subst h
    refine ⟨fun k => by simp, fun i hi => absurd hi (by simp), rfl⟩
  | cons info rest ih =>
    intro s s' h
    simp only [applyTxInputs] at h
    cases h2 : (s.putLockTx (info.lock_hash, info.number, info.index.tx_index) txh).delLiveCellMap
        info.out_point with
    | none => rw [h2] at h; exact Option.noConfusion h
    | some s2 =>
      rw [h2] at h
      dsimp only at h
      cases h3 : s2.delLiveCellIndex (info.number, info.index) with
      | none => rw [h3] at h; exact Option.noConfusion h
      | some s3 =>
        rw [h3] at h
        dsimp only at h
        cases h4 : s3.delLockLiveCellIndex (info.lock_hash, info.number, info.index) with
        | none => rw [h4] at h; exact Option.noConfusion h
        | some s4 =>
          rw [h4] at h
          dsimp only at h
          obtain ⟨e2, p2, r2⟩ := delLiveCellMap_inv h2
          obtain ⟨e3, r3⟩ := delLiveCellIndex_inv h3
          obtain ⟨e4, r4⟩ := delLockLiveCellIndex_inv h4
          obtain ⟨erec, prec, rrec⟩ := ih s4 s' h
          have emap : ∀ k, s4.liveCellMap k
              = if k = info.out_point then none else s.liveCellMap k := by
            intro k
            rw [e4, e3, e2]
            rfl
          refine ⟨?_, ?_, ?_⟩
          · intro k
            rw [erec k, emap k]
            by_cases hk1 : k ∈ rest.map (fun i => i.out_point) <;>
              by_cases hk2 : k = info.out_point <;>
                simp [hk1, hk2]
          · intro i hi
            cases hi with
            | head => exact p2
            | tail _ hi' =>
              have := prec i hi'
              rw [emap i.out_point] at this
              by_cases hk : i.out_point = info.out_point
              · rw [if_pos hk] at this
                exact Bool.noConfusion this
              · rw [if_neg hk] at this
                exact this
          · rw [rrec, r4, r3, r2]
            rfl

/-- The produced-cell loop of `apply`: exactly the produced cells are
written to the by-origin index (keyed by their own out-point field), and
the recent-header index is untouched. -/
theorem applyTxOutputs_inv (txh : Nat) :
    ∀ (l : List LiveCellInfo) (s : Store),
      (∀ k, ((applyTxOutputs txh s l).liveCellMap k).isSome = true
        ↔ (k ∈ l.map (fun i => i.out_point) ∨ (s.liveCellMap k).isSome = true))
      ∧ (∀ k info, (applyTxOutputs txh s l).liveCellMap k = some info →
          info.out_point = k ∨ s.liveCellMap k = some info)
      ∧ (applyTxOutputs txh s l).recentHeaders = s.recentHeaders := by
  intro l
  induction l with
  | nil =>
    intro s
    exact ⟨fun k => by simp [applyTxOutputs], fun k info h => Or.inr h, rfl⟩
  | cons info rest ih =>
    intro s
    simp only [applyTxOutputs]
    obtain ⟨hiso, hinv, hrec⟩ :=
      ih (((s.putLockTx (info.lock_hash, info.number, info.index.tx_index) txh).putLiveCell info))
    refine ⟨?_, ?_, ?_⟩
    · intro k
      rw [hiso k]
      unfold Store.putLiveCell Store.putLockTx
      dsimp only
      by_cases hk : k = info.out_point <;> simp [hk]
    · intro k v hv
      rcases hinv k v hv with h1 | h1
      · exact Or.inl h1
      · unfold Store.putLiveCell Store.putLockTx at h1
        dsimp only at h1
        by_cases hk : k = info.out_point
        · rw [if_pos hk] at h1
          injection h1 with h1
          subst h1
          exact Or.inl hk.symm
        · rw [if_neg hk] at h1
          exact Or.inr h1
    · rw [hrec]
      rfl



/-- One transaction of `apply`, on success: a cell is live afterwards iff
it was just produced, or was live before and not consumed; every consumed
out-point was live before; records stay keyed by their own out-point; the
recent-header index is untouched. -/
theorem applyTx_inv (s : Store) (t : RichTxInfo) (s' : Store)
    (h : applyTx s t = some s') :
    (∀ k, (s'.liveCellMap k).isSome = true
      ↔ (k ∈ t.outputs.map (fun i => i.out_point)
          ∨ ((s.liveCellMap k).isSome = true ∧ k ∉ t.inputs.map (fun i => i.out_point))))
    ∧ (∀ i ∈ t.inputs, (s.liveCellMap i.out_point).isSome = true)
    ∧ (∀ k info, s'.liveCellMap k = some info → info.out_point = k ∨ s.liveCellMap k = some info)
    ∧ s'.recentHeaders = s.recentHeaders := by
  unfold applyTx at h
  dsimp only at h
  cases hin : applyTxInputs t.tx_hash (s.putTxMap t.tx_hash t.to_thin) t.inputs with
  | none => rw [hin] at h; exact Option.noConfusion h
  | some s2 =>
    rw [hin] at h
    dsimp only at h
    simp only [Option.some.injEq] at h
    subst h
    obtain ⟨ein, pin, rin⟩ := applyTxInputs_inv t.tx_hash t.inputs _ s2 hin
    obtain ⟨eout, einv, rout⟩ := applyTxOutputs_inv t.tx_hash t.outputs s2
    refine ⟨?_, ?_, ?_, ?_⟩
    · intro k
      rw [eout k, ein k]
      by_cases hk : k ∈ t.inputs.map (fun i => i.out_point) <;> simp [hk, Store.putTxMap]
    · intro i hi
      exact pin i hi
    · intro k v hv
      rcases einv k v hv with h1 | h1
      · exact Or.inl h1
      · rw [ein k] at h1
        by_cases hk : k ∈ t.inputs.map (fun i => i.out_point)
        · rw [if_pos hk] at h1
          exact Option.noConfusion h1
        · rw [if_neg hk] at h1
          exact Or.inr h1
    · rw [rout, rin]
      rfl

/-- The transaction loop of `apply`, on success, tracked against
accumulated produced/consumed out-point sets: freshness of the produced
out-points gives the exact live-set characterization. -/
theorem applyTxs_pc :
    ∀ (txs : List RichTxInfo) (s s' : Store) (P C : List CellOutPoint),
      applyTxs s txs = some s' →
      (∀ k, (s.liveCellMap k).isSome = true ↔ (k ∈ P ∧ k ∉ C)) →
      (∀ k info, s.liveCellMap k = some info → info.out_point = k) →
      (∀ k ∈ C, k ∈ P) →
      (P ++ richProduced txs).Nodup →
      (∀ k, (s'.liveCellMap k).isSome = true
          ↔ (k ∈ P ++ richProduced txs ∧ k ∉ C ++ richConsumed txs))
      ∧ (∀ k info, s'.liveCellMap k = some info → info.out_point = k)
      ∧ (∀ k ∈ C ++ richConsumed txs, k ∈ P ++ richProduced txs)
      ∧ s'.recentHeaders = s.recentHeaders := by
  intro txs
  induction txs with
  | nil =>
    intro s s' P C h hiff hinv hcp _
    simp only [applyTxs, Option.some.injEq] at h
    subst h
    simp only [richProduced, richConsumed, List.flatMap_nil, List.append_nil]
    exact ⟨hiff, hinv, hcp, trivial⟩
  | cons t rest ih =>
    intro s s' P C h hiff hinv hcp hnodup
    simp only [applyTxs] at h
    cases htx : applyTx s t with
    | none => rw [htx] at h; exact Option.noConfusion h
    | some s1 =>
      rw [htx] at h
      dsimp only at h
      obtain ⟨tiff, tin, tinv, trec⟩ := applyTx_inv s t s1 htx
      have hflat : richProduced (t :: rest)
          = t.outputs.map (fun i => i.out_point) ++ richProduced rest := by
        simp [richProduced]
      have hflatC : richConsumed (t :: rest)
          = t.inputs.map (fun i => i.out_point) ++ richConsumed rest := by
        simp [richConsumed]
      have hdisj : ∀ k ∈ t.outputs.map (fun i => i.out_point), k ∉ P := by
        intro k hk hkP
        rw [hflat, ← List.append_assoc] at hnodup
        rcases List.nodup_append.mp hnodup with ⟨hn1, -, -⟩
        rcases List.nodup_append.mp hn1 with ⟨-, -, hd⟩
        exact hd hkP hk
      have hins : ∀ k ∈ t.inputs.map (fun i => i.out_point), k ∈ P ∧ k ∉ C := by
        intro k hk
        simp only [List.mem_map] at hk
        obtain ⟨i, hi, hik⟩ := hk
        subst hik
        exact (hiff i.out_point).mp (tin i hi)
      have hiff1 : ∀ k, (s1.liveCellMap k).isSome = true
          ↔ (k ∈ P ++ t.outputs.map (fun i => i.out_point)
              ∧ k ∉ C ++ t.inputs.map (fun i => i.out_point)) := by
        intro k
        rw [tiff k, hiff k]
        simp only [List.mem_append]
        constructor
        · rintro (hk | ⟨⟨hP, hC⟩, hni⟩)
          · have hnP := hdisj k hk
            refine ⟨Or.inr hk, ?_⟩
            rintro (hkC | hkI)
            · exact hnP (hcp k hkC)
            · exact hnP (hins k hkI).1
          · exact ⟨Or.inl hP, by rintro (hkC | hkI) <;> [exact hC hkC; exact hni hkI]⟩
        · rintro ⟨hP | hO, hn⟩
          · exact Or.inr ⟨⟨hP, fun hc => hn (Or.inl hc)⟩, fun hi => hn (Or.inr hi)⟩
          · exact Or.inl hO
      have hinv1 : ∀ k info, s1.liveCellMap k = some info → info.out_point = k := by
        intro k v hv
        rcases tinv k v hv with h1 | h1
        · exact h1
        · exact hinv k v h1
      have hcp1 : ∀ k ∈ C ++ t.inputs.map (fun i => i.out_point),
          k ∈ P ++ t.outputs.map (fun i => i.out_point) := by
        intro k hk
        rcases List.mem_append.mp hk with hk | hk
        · exact List.mem_append.mpr (Or.inl (hcp k hk))
        · exact List.mem_append.mpr (Or.inl (hins k hk).1)
      have hnodup1 : ((P ++ t.outputs.map (fun i => i.out_point)) ++ richProduced rest).Nodup := by
        rw [List.append_assoc, ← hflat]
        exact hnodup
      obtain ⟨riff, rinv, rcp, rrec⟩ :=
        ih s1 s' (P ++ t.outputs.map (fun i => i.out_point))
          (C ++ t.inputs.map (fun i => i.out_point)) h hiff1 hinv1 hcp1 hnodup1
      refine ⟨?_, rinv, ?_, rrec.trans trec⟩
      · intro k
        rw [riff k, hflat, hflatC, ← List.append_assoc, ← List.append_assoc]
      · intro k hk
        rw [hflatC, ← List.append_assoc] at hk
        rw [hflat, ← List.append_assoc]
        exact rcp k hk

/-- One lock record update of `apply` touches neither the recent-header
index nor the live-cell-by-origin index. -/
theorem applyLock_frame (s : Store) (lockHash : Nat) (info : LockInfo) (s' : Store)
    (h : applyLock s lockHash info = some s') :
    s'.recentHeaders = s.recentHeaders ∧ s'.liveCellMap = s.liveCellMap := by
  unfold applyLock at h
  dsimp only at h
  repeat' split at h
  all_goals
    first
      | exact Option.noConfusion h
      | (simp only [Option.some.injEq] at h
         subst h
         exact ⟨rfl, rfl⟩)

/-- The lock loop of `apply` touches neither the recent-header index nor
the live-cell-by-origin index. -/
theorem applyLocks_frame :
    ∀ (locks : LockMap) (s s' : Store), applyLocks s locks = some s' →
      s'.recentHeaders = s.recentHeaders ∧ s'.liveCellMap = s.liveCellMap := by
  intro locks
  induction locks with
  | nil =>
    intro s s' h
    simp only [applyLocks, Option.some.injEq] at h
    subst h
    exact ⟨rfl, rfl⟩
  | cons p rest ih =>
    intro s s' h
    obtain ⟨lh, li⟩ := p
    simp only [applyLocks] at h
    cases h1 : applyLock s lh li with
    | none => rw [h1] at h; exact Option.noConfusion h
    | some s1 =>
      rw [h1] at h
      dsimp only at h
      obtain ⟨e1, e2⟩ := applyLock_frame s lh li s1 h1
      obtain ⟨f1, f2⟩ := ih s1 s' h
      exact ⟨f1.trans e1, f2.trans e2⟩

/-- Inversion of a successful `apply` on the store: the live-cell map is
exactly the one left by the transaction loop, and the recent-header index
is the result of inserting this block's header and deleting the collected
old numbers (the lock loop touches neither). -/
theorem applyDelta_inv (d : BlockDeltaInfo) (s : Store) (r : ApplyResult) (s' : Store)
    (h : applyDelta d s = some (r, s')) :
    ∃ sA hi hs2, applyTxs s d.txs = some sA
      ∧ s'.liveCellMap = sA.liveCellMap
      ∧ deleteRecentHeaders (insertRecentHeader sA.recentHeaders d.header.number hi)
          d.old_headers = some hs2
      ∧ s'.recentHeaders = hs2 := by
  unfold applyDelta at h
  dsimp only at h
  cases hA : applyTxs s d.txs with
  | none => rw [hA] at h; exact Option.noConfusion h
  | some sA =>
    rw [hA] at h
    dsimp only at h
    cases hB : applyLocks sA d.locks with
    | none => rw [hB] at h; exact Option.noConfusion h
    | some sB =>
      rw [hB] at h
      dsimp only at h
      obtain ⟨rB, lB⟩ := applyLocks_frame d.locks sA sB hB
      cases hD : deleteRecentHeaders
          (insertRecentHeader sB.recentHeaders d.header.number
            { header := d.header
              txs_size := d.txs.length
              uncles_size := d.uncles_size
              proposals_size := d.proposals_size
              chain_capacity := d.new_chain_capacity
              capacity_delta := i64ofWrap (u128sub d.new_chain_capacity d.old_chain_capacity)
              cell_removed := (d.txs.map (fun t => t.inputs.length)).sum
              cell_added := (d.txs.map (fun t => t.outputs.length)).sum })
          d.old_headers with
      | none => rw [hD] at h; exact Option.noConfusion h
      | some hs2 =>
        rw [hD] at h
        dsimp only at h
        simp only [Option.some.injEq, Prod.mk.injEq] at h
        obtain ⟨-, hs'⟩ := h
        subst hs'
        refine ⟨sA,
          { header := d.header
            txs_size := d.txs.length
            uncles_size := d.uncles_size
            proposals_size := d.proposals_size
            chain_capacity := d.new_chain_capacity
            capacity_delta := i64ofWrap (u128sub d.new_chain_capacity d.old_chain_capacity)
            cell_removed := (d.txs.map (fun t => t.inputs.length)).sum
            cell_added := (d.txs.map (fun t => t.outputs.length)).sum },
          hs2, rfl, lB, ?_, rfl⟩
        rw [← rB]
        exact hD

/-- The bounded scan collects nothing from an ascending range that starts
inside the retention window. -/
theorem collectOldNums_range'_high (a len num : Nat) (h : num < a + KEEP_RECENT_HEADERS) :
    collectOldNums (List.range' a len) num = [] := by
  cases len with
  | zero => rfl
  | succ len' =>
    rw [List.range'_succ]
    simp only [collectOldNums]
    rw [if_neg (by omega)]

/-- One retention-window step: inserting header number `j` into a window
holding the previous `min j KEEP_RECENT_HEADERS` numbers and deleting the
collected old numbers leaves exactly the most recent
`min (j+1) KEEP_RECENT_HEADERS` numbers. -/
theorem step_keys (j : Nat) (hs : List (Nat × HeaderInfo)) (hi : HeaderInfo)
    (hs2 : List (Nat × HeaderInfo))
    (hkeys : hs.map Prod.fst
      = List.range' (j - min j KEEP_RECENT_HEADERS) (min j KEEP_RECENT_HEADERS))
    (hdel : deleteRecentHeaders (insertRecentHeader hs j hi)
        (collectOldHeaders hs j) = some hs2) :
    hs2.map Prod.fst
      = List.range' (j + 1 - min (j + 1) KEEP_RECENT_HEADERS)
          (min (j + 1) KEEP_RECENT_HEADERS) := by
  have hKpos : 0 < KEEP_RECENT_HEADERS := by decide
  have hins : (insertRecentHeader hs j hi).map Prod.fst
      = List.range' (j - min j KEEP_RECENT_HEADERS) (min j KEEP_RECENT_HEADERS + 1) := by
    rw [insertRecentHeader_keys_append j hi hs ?_, hkeys]
    · have hj : (j - min j KEEP_RECENT_HEADERS) + min j KEEP_RECENT_HEADERS = j := by omega
      rw [List.range'_1_concat, hj]
    · intro m hm
      rw [hkeys, List.mem_range'_1] at hm
      omega
  by_cases hK : KEEP_RECENT_HEADERS ≤ j
  · have hmin : min j KEEP_RECENT_HEADERS = KEEP_RECENT_HEADERS := by omega
    have hold : collectOldHeaders hs j = [j - KEEP_RECENT_HEADERS] := by
      rw [collectOldHeaders_eq_nums, hkeys, hmin]
      obtain ⟨len', hlen⟩ : ∃ l', KEEP_RECENT_HEADERS = l' + 1 :=
        ⟨KEEP_RECENT_HEADERS - 1, by omega⟩
      have hlen' := hlen
      nth_rewrite 2 [hlen]
      rw [List.range'_succ]
      simp only [collectOldNums]
      rw [if_pos (by omega), collectOldNums_range'_high _ _ _ (by omega)]
    rw [hold] at hdel
    have hmem : j - KEEP_RECENT_HEADERS ∈ (insertRecentHeader hs j hi).map Prod.fst := by
      rw [hins, List.mem_range'_1]
      omega
    simp only [deleteRecentHeaders, deleteRecentHeader_some _ _ hmem,
      Option.some.injEq] at hdel
    subst hdel
    have etarget : List.range' (j + 1 - min (j + 1) KEEP_RECENT_HEADERS)
        (min (j + 1) KEEP_RECENT_HEADERS)
        = List.range' (j - KEEP_RECENT_HEADERS + 1) KEEP_RECENT_HEADERS := by
      rw [show min (j + 1) KEEP_RECENT_HEADERS = KEEP_RECENT_HEADERS from by omega,
        show j + 1 - KEEP_RECENT_HEADERS = j - KEEP_RECENT_HEADERS + 1 from by omega]
    rw [filter_keys, hins, hmin, List.range'_succ, etarget]
    simp only [List.filter_cons]
    rw [if_neg (by simp)]
    rw [List.filter_eq_self.mpr ?_]
    intro m hm
    rw [List.mem_range'_1] at hm
    simp only [decide_eq_true_eq]
    omega
  · have hold : collectOldHeaders hs j = [] := by
      rw [collectOldHeaders_eq_nums, hkeys]
      exact collectOldNums_range'_high _ _ _ (by omega)
    rw [hold] at hdel
    simp only [deleteRecentHeaders, Option.some.injEq] at hdel
    subst hdel
    rw [hins]
    rw [show j - min j KEEP_RECENT_HEADERS = j + 1 - min (j + 1) KEEP_RECENT_HEADERS
        from by omega,
      show min j KEEP_RECENT_HEADERS + 1 = min (j + 1) KEEP_RECENT_HEADERS from by omega]

/-- The transaction loop of `apply` never touches the recent-header
index. -/
theorem applyTxs_recent :
    ∀ (txs : List RichTxInfo) (s s' : Store), applyTxs s txs = some s' →
      s'.recentHeaders = s.recentHeaders := by
  intro txs
  induction txs with
  | nil =>
    intro s s' h
    simp only [applyTxs, Option.some.injEq] at h
    subst h
    rfl
  | cons t rest ih =>
    intro s s' h
    simp only [applyTxs] at h
    cases h1 : applyTx s t with
    | none => rw [h1] at h; exact Option.noConfusion h
    | some s1 =>
      rw [h1] at h
      dsimp only at h
      exact (ih s1 s' h).trans (applyTx_inv s t s1 h1).2.2.2

/-- One diff-and-apply round updates the retention window by inserting
the block's number and deleting exactly the collected old numbers. -/
theorem processBlock_keys (secp : Nat) (fla : List Nat → Option Nat) (sh : Script → Nat)
    (b : Block) (s s' : Store) (h : processBlock secp fla sh b s = some s') :
    ∃ hi hs2, deleteRecentHeaders (insertRecentHeader s.recentHeaders b.header.number hi)
        (collectOldHeaders s.recentHeaders b.header.number) = some hs2
      ∧ s'.recentHeaders = hs2 := by
  unfold processBlock at h
  cases hfb : fromBlock secp fla sh b s with
  | none => rw [hfb] at h; exact Option.noConfusion h
  | some p =>
    rw [hfb] at h
    dsimp only at h
    obtain ⟨d, s0⟩ := p
    obtain ⟨hs0, hhd, hoh, -, -, -⟩ := fromBlock_inv secp fla sh b s d s0 hfb
    subst hs0
    cases had : applyDelta d s0 with
    | none => rw [had] at h; exact Option.noConfusion h
    | some q =>
      rw [had] at h
      dsimp only at h
      simp only [Option.some.injEq] at h
      obtain ⟨r, s''⟩ := q
      obtain ⟨sA, hi, hs2, hA, -, hdel, hrec⟩ := applyDelta_inv d s0 r s'' had
      have hArec : sA.recentHeaders = s0.recentHeaders := applyTxs_recent d.txs s0 sA hA
      refine ⟨hi, hs2, ?_, ?_⟩
      · rw [← hoh, ← hhd, ← hArec]
        exact hdel
      · rw [← h]
        exact hrec

/-- Applying blocks with consecutive numbers `j, j+1, ...` maintains the
retention window as exactly the most recent `min · KEEP_RECENT_HEADERS`
block numbers. -/
theorem applyChain_keys (secp : Nat) (fla : List Nat → Option Nat) (sh : Script → Nat) :
    ∀ (bs : List Block) (j : Nat) (s0 s : Store),
      s0.recentHeaders.map Prod.fst
          = List.range' (j - min j KEEP_RECENT_HEADERS) (min j KEEP_RECENT_HEADERS) →
      bs.map (fun b => b.header.number) = List.range' j bs.length →
      applyChain secp fla sh bs s0 = some s →
      s.recentHeaders.map Prod.fst
        = List.range' (j + bs.length - min (j + bs.length) KEEP_RECENT_HEADERS)
            (min (j + bs.length) KEEP_RECENT_HEADERS) := by
  intro bs
  induction bs with
  | nil =>
    intro j s0 s h0 _ h
    simp only [applyChain, Option.some.injEq] at h
    subst h
    simpa using h0
  | cons b rest ih =>
    intro j s0 s h0 hnum h
    simp only [List.map_cons, List.length_cons, List.range'_succ, List.cons.injEq] at hnum
    obtain ⟨hbj, hrest⟩ := hnum
    simp only [applyChain] at h
    cases hpb : processBlock secp fla sh b s0 with
    | none => rw [hpb] at h; exact Option.noConfusion h
    | some s1 =>
      rw [hpb] at h
      dsimp only at h
      obtain ⟨hi, hs2, hdel, hrec⟩ := processBlock_keys secp fla sh b s0 s1 hpb
      rw [hbj] at hdel
      have h1 : s1.recentHeaders.map Prod.fst
          = List.range' (j + 1 - min (j + 1) KEEP_RECENT_HEADERS)
              (min (j + 1) KEEP_RECENT_HEADERS) := by
        rw [hrec]
        exact step_keys j s0.recentHeaders hi hs2 h0 hdel
      have := ih (j + 1) s1 s h1 hrest h
      rw [show j + 1 + rest.length = j + (rest.length + 1) from by omega] at this
      exact this

/-- C4: after applying any chain of blocks numbered `0..m` in order from
the empty store, the retained header numbers are exactly the most recent
`KEEP_RECENT_HEADERS` block numbers (all of them near genesis), the
window never exceeds `KEEP_RECENT_HEADERS` entries, and the scan of
`from_block` collects precisely the retained numbers `n` with
`n + KEEP_RECENT_HEADERS ≤ new block number`. -/
theorem c4_retention_window (secp : Nat) (fla : List Nat → Option Nat) (sh : Script → Nat)
    (m : Nat) (bs : List Block)
    (hnum : bs.map (fun b => b.header.number) = List.range (m + 1))
    (l : List Nat)
    (h : (applyChain secp fla sh bs emptyStore).map
        (fun s => s.recentHeaders.map Prod.fst) = some l) :
    l = List.range' (m + 1 - min (m + 1) KEEP_RECENT_HEADERS)
          (min (m + 1) KEEP_RECENT_HEADERS)
    ∧ l.length ≤ KEEP_RECENT_HEADERS
    ∧ (∀ hs : List Nat, hs.Pairwise (· < ·) → ∀ number,
        collectOldNums hs number
          = hs.filter (fun n => n + KEEP_RECENT_HEADERS ≤ number)) := by
  have hlen : bs.length = m + 1 := by
    have := congrArg List.length hnum
    simpa using this
  cases hch : applyChain secp fla sh bs emptyStore with
  | none => rw [hch] at h; exact Option.noConfusion h
  | some s =>
    rw [hch, Option.map_some', Option.some.injEq] at h
    subst h
    have hkeys := applyChain_keys secp fla sh bs 0 emptyStore s (by simp [emptyStore]) ?_ hch
    · rw [hlen] at hkeys
      simp only [Nat.zero_add] at hkeys
      refine ⟨hkeys, ?_, fun hs hp number => collectOldNums_eq_filter number hs hp⟩
      rw [hkeys, List.length_range']
      omega
    · rw [hnum, hlen, List.range_eq_range']

/-- Witness for C4: three consecutive blocks from genesis retain exactly
the numbers 0, 1, 2. -/
theorem c4_retention_window_witness :
    [0, 1, 2] = List.range' (3 - min 3 KEEP_RECENT_HEADERS) (min 3 KEEP_RECENT_HEADERS)
    ∧ ([0, 1, 2] : List Nat).length ≤ KEEP_RECENT_HEADERS :=
  have h := c4_retention_window 0 (fun _ => none) (fun sc => sc.code_hash) 2
    [{ header := { number := 0, timestamp := 0 }, uncles := 0, proposals := 0,
       transactions := [] },
     { header := { number := 1, timestamp := 0 }, uncles := 0, proposals := 0,
       transactions := [] },
     { header := { number := 2, timestamp := 0 }, uncles := 0, proposals := 0,
       transactions := [] }]
    (by decide) [0, 1, 2] (by decide)
  ⟨h.1, h.2.1⟩

/-- The out-points of the cells built by the output loop of `from_block`
are this transaction's hash paired with the successive output indices. -/
theorem processOutputs_ops (secp : Nat) (fla : List Nat → Option Nat) (sh : Script → Nat)
    (s : Store) (number txHash txIndex : Nat) :
    ∀ (outs : List Output) (locks : LockMap) (outIdx : Nat),
      (processOutputs secp fla sh s number txHash txIndex locks outIdx outs).1.map
          (fun i => i.out_point)
        = (List.range' outIdx outs.length).map
            (fun i => { tx_hash := txHash, index := i }) := by
  intro outs
  induction outs with
  | nil =>
    intro locks outIdx
    rfl
  | cons o rest ih =>
    intro locks outIdx
    simp only [processOutputs]
    simp only [List.map_cons, List.length_cons, List.range'_succ]
    exact congrArg (List.cons _) (ih _ _)

/-- The out-points of the cells resolved by the input loop of `from_block`
are exactly the resolvable previous out-points of the transaction, in
order (using that stored records are keyed by their own out-point). -/
theorem processInputs_ops (s : Store)
    (hinv : ∀ k info, s.liveCellMap k = some info → info.out_point = k) :
    ∀ (ins : List (Option CellOutPoint)) (locks : LockMap) (infos : List LiveCellInfo)
      (locks' : LockMap),
      processInputs s locks ins = some (infos, locks') →
      infos.map (fun i => i.out_point) = ins.filterMap id := by
  intro ins
  induction ins with
  | nil =>
    intro locks infos locks' h
    simp only [processInputs, Option.some.injEq, Prod.mk.injEq] at h
    obtain ⟨h1, -⟩ := h
    subst h1
    rfl
  | cons hd rest ih =>
    intro locks infos locks' h
    cases hd with
    | none =>
      simp only [processInputs] at h
      exact ih locks infos locks' h
    | some op =>
      simp only [processInputs] at h
      cases hl : s.liveCellMap op with
      | none => rw [hl] at h; exact Option.noConfusion h
      | some info =>
        rw [hl] at h
        dsimp only at h
        cases hadd : (lockGet s locks info.lock_hash).add_input info.capacity with
        | none => rw [hadd] at h; exact Option.noConfusion h
        | some li =>
          rw [hadd] at h
          dsimp only at h
          cases hrec : processInputs s (lockUpdate locks info.lock_hash li) rest with
          | none => rw [hrec] at h; exact Option.noConfusion h
          | some q =>
            rw [hrec] at h
            obtain ⟨infos0, locks0⟩ := q
            dsimp only at h
            simp only [Option.some.injEq, Prod.mk.injEq] at h
            obtain ⟨h1, -⟩ := h
            subst h1
            show info.out_point :: infos0.map (fun i => i.out_point)
              = op :: rest.filterMap id
            rw [hinv op info hl, ih _ infos0 locks0 hrec]

/-- The rich transaction records built by `from_block` produce and
consume exactly the block's out-points. -/
theorem processTxs_ops (secp : Nat) (fla : List Nat → Option Nat) (sh : Script → Nat)
    (s : Store) (number timestamp : Nat)
    (hinv : ∀ k info, s.liveCellMap k = some info → info.out_point = k) :
    ∀ (txs : List Tx) (txIndex : Nat) (locks : LockMap) (richs : List RichTxInfo)
      (locks' : LockMap),
      processTxs secp fla sh s number timestamp txIndex locks txs = some (richs, locks') →
      richProduced richs = txs.flatMap txProducedOps
      ∧ richConsumed richs = txs.flatMap txConsumedOps := by
  intro txs
  induction txs with
  | nil =>
    intro txIndex locks richs locks' h
    simp only [processTxs, Option.some.injEq, Prod.mk.injEq] at h
    obtain ⟨h1, -⟩ := h
    subst h1
    exact ⟨rfl, rfl⟩
  | cons tx rest ih =>
    intro txIndex locks richs locks' h
    simp only [processTxs] at h
    cases htx : processTx secp fla sh s number timestamp txIndex tx locks with
    | none => rw [htx] at h; exact Option.noConfusion h
    | some p =>
      rw [htx] at h
      obtain ⟨rich, locks1⟩ := p
      dsimp only at h
      cases hrest : processTxs secp fla sh s number timestamp (txIndex + 1) locks1 rest with
      | none => rw [hrest] at h; exact Option.noConfusion h
      | some q =>
        rw [hrest] at h
        obtain ⟨richs0, locks2⟩ := q
        dsimp only at h
        simp only [Option.some.injEq, Prod.mk.injEq] at h
        obtain ⟨h1, -⟩ := h
        subst h1
        obtain ⟨ihp, ihc⟩ := ih (txIndex + 1) locks1 richs0 locks2 hrest
        unfold processTx at htx
        cases hin : processInputs s locks tx.inputs with
        | none => rw [hin] at htx; exact Option.noConfusion htx
        | some pin =>
          rw [hin] at htx
          obtain ⟨inputs, locksA⟩ := pin
          dsimp only at htx
          simp only [Option.some.injEq, Prod.mk.injEq] at htx
          obtain ⟨hrich, -⟩ := htx
          subst hrich
          constructor
          · show (processOutputs secp fla sh s number tx.hash txIndex locksA 0
                tx.outputs).1.map (fun i => i.out_point) ++ richProduced richs0
              = txProducedOps tx ++ rest.flatMap txProducedOps
            rw [processOutputs_ops, ihp]
            unfold txProducedOps
            rw [List.range_eq_range']
          · show inputs.map (fun i => i.out_point) ++ richConsumed richs0
              = txConsumedOps tx ++ rest.flatMap txConsumedOps
            rw [processInputs_ops s hinv tx.inputs locks inputs locksA hin, ihc]
            rfl

/-- The full chain, tracked against accumulated produced/consumed
out-point lists: a cell is live exactly when produced and not consumed. -/
theorem applyChain_pc (secp : Nat) (fla : List Nat → Option Nat) (sh : Script → Nat) :
    ∀ (bs : List Block) (s0 s : Store) (P C : List CellOutPoint),
      applyChain secp fla sh bs s0 = some s →
      (∀ k, (s0.liveCellMap k).isSome = true ↔ (k ∈ P ∧ k ∉ C)) →
      (∀ k info, s0.liveCellMap k = some info → info.out_point = k) →
      (∀ k ∈ C, k ∈ P) →
      (P ++ producedOps bs).Nodup →
      (∀ k, (s.liveCellMap k).isSome = true
          ↔ (k ∈ P ++ producedOps bs ∧ k ∉ C ++ consumedOps bs))
      ∧ (∀ k info, s.liveCellMap k = some info → info.out_point = k)
      ∧ (∀ k ∈ C ++ consumedOps bs, k ∈ P ++ producedOps bs) := by
  intro bs
  induction bs with
  | nil =>
    intro s0 s P C h hiff hinv hcp _
    simp only [applyChain, Option.some.injEq] at h
    subst h
    simp only [producedOps, consumedOps, List.flatMap_nil, List.append_nil]
    exact ⟨hiff, hinv, hcp⟩
  | cons b rest ih =>
    intro s0 s P C h hiff hinv hcp hnodup
    simp only [applyChain] at h
    cases hpb : processBlock secp fla sh b s0 with
    | none => rw [hpb] at h; exact Option.noConfusion h
    | some s1 =>
      rw [hpb] at h
      dsimp only at h
      unfold processBlock at hpb
      cases hfb : fromBlock secp fla sh b s0 with
      | none => rw [hfb] at hpb; exact Option.noConfusion hpb
      | some p =>
        rw [hfb] at hpb
        dsimp only at hpb
        obtain ⟨d, sW⟩ := p
        obtain ⟨hsW, -, -, -, -, hptxs⟩ := fromBlock_inv secp fla sh b s0 d sW hfb
        subst hsW
        cases had : applyDelta d sW with
        | none => rw [had] at hpb; exact Option.noConfusion hpb
        | some q =>
          rw [had] at hpb
          dsimp only at hpb
          obtain ⟨r, s1'⟩ := q
          dsimp only at hpb
          simp only [Option.some.injEq] at hpb
          subst hpb
          obtain ⟨sA, hi, hs2, hA, hlive, -, -⟩ := applyDelta_inv d sW r s1' had
          obtain ⟨hbp, hbc⟩ := processTxs_ops secp fla sh sW b.header.number
            b.header.timestamp hinv b.transactions 0 [] d.txs d.locks hptxs
          have hflatP : producedOps (b :: rest)
              = blockProducedOps b ++ producedOps rest := by
            simp [producedOps]
          have hflatC : consumedOps (b :: rest)
              = blockConsumedOps b ++ consumedOps rest := by
            simp [consumedOps]
          have hnodup' : (P ++ richProduced d.txs).Nodup := by
            rw [hbp]
            rw [hflatP, ← List.append_assoc] at hnodup
            exact (List.nodup_append.mp hnodup).1
          obtain ⟨aiff, ainv, acp, -⟩ := applyTxs_pc d.txs sW sA P C hA hiff hinv hcp hnodup'
          have hbp' : richProduced d.txs = blockProducedOps b := hbp
          have hbc' : richConsumed d.txs = blockConsumedOps b := hbc
          have hiff1 : ∀ k, (s1'.liveCellMap k).isSome = true
              ↔ (k ∈ P ++ blockProducedOps b ∧ k ∉ C ++ blockConsumedOps b) := by
            intro k
            rw [hlive, aiff k, hbp', hbc']
          have hinv1 : ∀ k info, s1'.liveCellMap k = some info → info.out_point = k := by
            intro k v hv
            rw [hlive] at hv
            exact ainv k v hv
          have hcp1 : ∀ k ∈ C ++ blockConsumedOps b, k ∈ P ++ blockProducedOps b := by
            intro k hk
            rw [← hbc'] at hk
            rw [← hbp']
            exact acp k hk
          have hnodup1 : ((P ++ blockProducedOps b) ++ producedOps rest).Nodup := by
            rw [List.append_assoc, ← hflatP]
            exact hnodup
          obtain ⟨riff, rinv, rcp⟩ :=
            ih s1' s (P ++ blockProducedOps b) (C ++ blockConsumedOps b)
              h hiff1 hinv1 hcp1 hnodup1
          refine ⟨?_, rinv, ?_⟩
          · intro k
            rw [riff k, hflatP, hflatC, ← List.append_assoc, ← List.append_assoc]
          · intro k hk
            rw [hflatC, ← List.append_assoc] at hk
            rw [hflatP, ← List.append_assoc]
            exact rcp k hk


/-- C5: after applying any chain of blocks whose produced out-points are
pairwise distinct, starting from the empty store, a cell is present in
the live-cell-by-origin index if and only if it was produced as an output
of some applied transaction and not consumed as an input by any applied
transaction. -/
theorem c5_live_cell_consistency (secp : Nat) (fla : List Nat → Option Nat)
    (sh : Script → Nat) (bs : List Block) (op : CellOutPoint)
    (hfresh : (producedOps bs).Nodup) (tv : Bool)
    (h : (applyChain secp fla sh bs emptyStore).map
        (fun s => (s.liveCellMap op).isSome) = some tv) :
    tv = true ↔ (op ∈ producedOps bs ∧ op ∉ consumedOps bs) := by
  cases hch : applyChain secp fla sh bs emptyStore with
  | none => rw [hch] at h; exact Option.noConfusion h
  | some s =>
    rw [hch, Option.map_some', Option.some.injEq] at h
    subst h
    obtain ⟨hiff, -, -⟩ := applyChain_pc secp fla sh bs emptyStore s [] [] hch
      (fun k => by simp [emptyStore])
      (fun k info hk => Option.noConfusion hk)
      (fun k hk => absurd hk (by simp))
      (by simpa using hfresh)
    have := hiff op
    simpa using this

/-- Witness for C5: in the two-block scenario the genesis output is
produced and then consumed, so it is no longer in the live-cell index. -/
theorem c5_live_cell_consistency_witness :
    ((applyChain 0 (fun _ => none) (fun sc => sc.code_hash) c5Blocks emptyStore).map
        (fun s => (s.liveCellMap { tx_hash := 10, index := 0 }).isSome) = some false)
    ∧ ¬(({ tx_hash := 10, index := 0 } : CellOutPoint) ∈ producedOps c5Blocks
        ∧ ({ tx_hash := 10, index := 0 } : CellOutPoint) ∉ consumedOps c5Blocks) := by
  refine ⟨by decide, ?_⟩
  have h := c5_live_cell_consistency 0 (fun _ => none) (fun sc => sc.code_hash) c5Blocks
    { tx_hash := 10, index := 0 } (by decide) false (by decide)
  intro hc
  exact Bool.noConfusion (h.mpr hc)
